import Mathlib

/-
Verification of the core of the `rethink-about-amp` prefix suggestion index.

Modelling conventions (shallow embedding of the Rust source):
* Rust `String` / `&str` values are modelled as `List Char` (Unicode scalar
  values).  `str::chars().count()` is `List.length`; `str::starts_with` is
  `List.isPrefixOf` (for valid UTF-8, byte-prefix and scalar-prefix agree).
* Byte-wise lexicographic comparison of UTF-8 strings coincides with
  lexicographic comparison of scalar values (`Char.toNat`), which is what
  `lexLt` / `lexLe` implement.
* `str::len()` (a byte count) is `byteLen`, the sum of the UTF-8 sizes of the
  scalars.
* `usize` arithmetic is `Nat` reduced mod `2 ^ 64` where wrap-around matters
  (`RunEndEncoding.add`); elsewhere the values stay far below `2 ^ 64` and are
  plain `Nat`.
* `HashMap<K, V>` is an association list; its iteration order is arbitrary in
  Rust and is modelled as the list order.  `qp_trie::Trie` and
  `blart::TreeMap` iterate in byte-lexicographic key order, modelled by
  sorting the association list at query time (`sortByKey`), resp. by a
  sortedness hypothesis on the stored list.
-/

namespace RethinkAmp

/-! ## Byte-lexicographic order on strings (as scalar lists) -/

/-- Strict byte-lexicographic order of UTF-8 strings, expressed on scalar
lists (UTF-8 byte order agrees with scalar order). -/
def lexLt : List Char → List Char → Bool
  | [], [] => false
  | [], _ :: _ => true
  | _ :: _, [] => false
  | a :: s, b :: t =>
    if a.toNat < b.toNat then true
    else if b.toNat < a.toNat then false
    else lexLt s t

/-- Non-strict byte-lexicographic order of UTF-8 strings. -/
def lexLe : List Char → List Char → Bool
  | [], _ => true
  | _ :: _, [] => false
  | a :: s, b :: t =>
    if a.toNat < b.toNat then true
    else if b.toNat < a.toNat then false
    else lexLe s t

/-- UTF-8 byte length of a string given as a scalar list (Rust `str::len`). -/
def byteLen (s : List Char) : Nat := (s.map Char.utf8Size).sum

/-! ## Keyword collapser (`src/common.rs::collapse_keywords`)

The Rust source walks the keyword list with an index `i`, extends a maximal
run of one-character extensions (the inner `while` loop, tracked here by
`collapseGo`, whose `best` accumulator is `keywords[j-1]`, the last element
accepted into the run), emits `(keywords[j-1], curr_len)` for runs and
`(curr, curr_len)` for singletons, and continues after the run.  The outer
loop is modelled with a fuel parameter (`fuel = keywords.length` always
suffices: every iteration consumes at least one element). -/

/-- Inner run-extension loop of `collapse_keywords`: starting from `curr`
(whose scalar count is `currLen`), with `n` elements already accepted and
`best` the last accepted element, scan `rest` for further one-character
extensions.  Returns (last element of the run, number collapsed, remaining
keywords). -/
def collapseGo (curr : List Char) (currLen : Nat) :
    Nat → List Char → List (List Char) → List Char × Nat × List (List Char)
  | n, best, [] => (best, n, [])
  | n, best, nxt :: rest =>
    if curr.isPrefixOf nxt ∧ nxt.length = currLen + n + 1 then
      collapseGo curr currLen (n + 1) nxt rest
    else (best, n, nxt :: rest)

/-- Outer loop of `collapse_keywords`, with explicit fuel (kept structural so
that concrete evaluation reduces in the kernel). -/
def collapseKeywordsFuel : Nat → List (List Char) → List (List Char × Nat)
  | 0, _ => []
  | _, [] => []
  | fuel + 1, curr :: rest =>
    let r := collapseGo curr curr.length 0 curr rest
    (r.1, curr.length) :: collapseKeywordsFuel fuel r.2.2

/-- `collapse_keywords` from `src/common.rs`: collapse each maximal chain of
one-char extensions into its last element, recording the scalar count of the
first element of the chain as `min_prefix_len`. -/
def collapseKeywords (keywords : List (List Char)) : List (List Char × Nat) :=
  collapseKeywordsFuel keywords.length keywords

/-! ## Extended collapser (`src/common.rs::collapse_keywords_ex`) -/

/-- Full keyword for each keyword (`src/common.rs::FullKeyword`). -/
inductive FullKeyword : Type where
  | Same : FullKeyword
  | Different : List Char → FullKeyword
deriving DecidableEq

/-- `FullKeyword::new` from `src/common.rs`. -/
def FullKeyword.new (keyword fullKeyword : List Char) : FullKeyword :=
  if keyword = fullKeyword then FullKeyword.Same
  else FullKeyword.Different fullKeyword

/-- `FullKeyword::full_keyword` from `src/common.rs`. -/
def FullKeyword.fullKeyword : FullKeyword → List Char → List Char
  | FullKeyword.Same, keyword => keyword
  | FullKeyword.Different fw, _ => fw

/-- Pointwise expansion of the run-length-encoded `full_keywords` list
(the `flat_map(repeat_n)` iterator in `collapse_keywords_ex`). -/
def expandRLE : List (List Char × Nat) → List (List Char)
  | [] => []
  | (fk, n) :: rest => List.replicate n fk ++ expandRLE rest

/-- Inner run-extension loop of `collapse_keywords_ex`; elements of the
zipped list are `(keyword, full_keyword)` pairs. -/
def collapseGoEx (curr : List Char) (currLen : Nat) :
    Nat → List Char × List Char → List (List Char × List Char) →
      (List Char × List Char) × Nat × List (List Char × List Char)
  | n, best, [] => (best, n, [])
  | n, best, (nxt, fk) :: rest =>
    if curr.isPrefixOf nxt ∧ nxt.length = currLen + n + 1 then
      collapseGoEx curr currLen (n + 1) (nxt, fk) rest
    else (best, n, (nxt, fk) :: rest)

/-- Outer loop of `collapse_keywords_ex`, with structural fuel. -/
def collapseKeywordsExFuel :
    Nat → List (List Char × List Char) → List (List Char × Nat × FullKeyword)
  | 0, _ => []
  | _, [] => []
  | fuel + 1, (curr, currFk) :: rest =>
    let r := collapseGoEx curr curr.length 0 (curr, currFk) rest
    (r.1.1, curr.length, FullKeyword.new r.1.1 r.1.2) ::
      collapseKeywordsExFuel fuel r.2.2

/-- `collapse_keywords_ex` from `src/common.rs`: the collapser threaded with
the pointwise full-keyword sequence (keywords zipped with the expanded RLE,
silently truncating to the shorter of the two). -/
def collapseKeywordsEx (keywords : List (List Char))
    (fullKeywords : List (List Char × Nat)) : List (List Char × Nat × FullKeyword) :=
  let ke := keywords.zip (expandRLE fullKeywords)
  collapseKeywordsExFuel ke.length ke

/-! ## Run-end encoding (`src/common.rs::RunEndEncoding`) -/

/-- `usize` modulus: `RunEndEncoding.add` performs `usize` arithmetic that can
wrap around (release-mode semantics of `count - 1` and `last + count`). -/
def USIZE : Nat := 2 ^ 64

/-- `RunEndEncoding` from `src/common.rs`: parallel `values` / `indices`
arrays, `indices[i]` being the inclusive end of run `i`. -/
structure RunEndEncoding : Type where
  values : List (List Char)
  indices : List Nat
deriving DecidableEq

/-- `RunEndEncoding::new`. -/
def RunEndEncoding.empty : RunEndEncoding := ⟨[], []⟩

/-- `RunEndEncoding::add`: push `value`, extend `indices` by
`indices.last().map_or(count - 1, |last| last + count)` in `usize`
arithmetic (wrap-around is modelled by reduction mod `2 ^ 64`; Rust debug
builds would instead panic on the `count = 0` underflow). -/
def RunEndEncoding.add (e : RunEndEncoding) (value : List Char) (count : Nat) :
    RunEndEncoding :=
  let next := match e.indices.getLast? with
    | none => (count + (USIZE - 1)) % USIZE
    | some last => (last + count) % USIZE
  ⟨e.values ++ [value], e.indices ++ [next]⟩

/-- The loop of Rust `slice::binary_search` (on a `Vec<usize>`), with
structural fuel; `fuel = length + 1` always suffices since the width
`right - left` strictly decreases. -/
def binarySearchGo (xs : List Nat) (target : Nat) :
    Nat → Nat → Nat → Except Nat Nat
  | 0, left, _ => Except.error left
  | fuel + 1, left, right =>
    if left < right then
      let mid := left + (right - left) / 2
      let v := xs.getD mid 0
      if v < target then binarySearchGo xs target fuel (mid + 1) right
      else if target < v then binarySearchGo xs target fuel left mid
      else Except.ok mid
    else Except.error left

/-- Rust `slice::binary_search`: `Ok(i)` with `xs[i] = target`, or
`Err(insertion_point)`. -/
def binarySearch (xs : List Nat) (target : Nat) : Except Nat Nat :=
  binarySearchGo xs target (xs.length + 1) 0 xs.length

/-- `RunEndEncoding::get` from `src/common.rs`: binary-search `indices` for
`index`; on an exact hit return `values[i]`, otherwise return
`values[insertion_idx - 1]`, or `None` when the insertion point is 0.
(The source indexes `values` directly and would panic out of bounds; with
`values` and `indices` kept parallel by `add` the access is in bounds, and
the model uses the optional access.) -/
def RunEndEncoding.get (e : RunEndEncoding) (index : Nat) : Option (List Char) :=
  match binarySearch e.indices index with
  | Except.ok exactIdx => e.values[exactIdx]?
  | Except.error insertionIdx =>
    if insertionIdx = 0 then none
    else e.values[insertionIdx - 1]?

/-- Modelled from the spec: lookup of logical index `k` in a run-end
encoding locates the least `i` with `ends[i] ≥ k` and returns `values[i]`
(the claim C7 reading of `RunEndEncoding::get`). -/
def RunEndEncoding.getSpec (e : RunEndEncoding) (index : Nat) : Option (List Char) :=
  match e.indices.findIdx? (fun x => decide (index ≤ x)) with
  | some i => e.values[i]?
  | none => none

/-! ## Dictionary interning and URL templates (`src/common.rs`,
`src/hybrid.rs::intern_string_static`) -/

/-- A dictionary pair: `lookup : HashMap<String, u32>` together with
`dict : HashMap<u32, String>`, both modelled as association lists (hash-map
iteration order is irrelevant here; only `get`/`insert`/`len` are used).
After build the source keeps only the `dict` side. -/
structure Dict : Type where
  lookup : List (List Char × Nat)
  dict : List (Nat × List Char)
deriving DecidableEq

/-- The empty dictionary. -/
def Dict.empty : Dict := ⟨[], []⟩

/-- `intern_string_static` (`src/hybrid.rs`) / `intern` (`src/blart.rs`):
return the existing id, or assign `id = lookup.len()` and record both
mappings. -/
def Dict.intern (d : Dict) (value : List Char) : Nat × Dict :=
  match List.lookup value d.lookup with
  | some id => (id, d)
  | none =>
    let id := d.lookup.length
    (id, ⟨d.lookup ++ [(value, id)], d.dict ++ [(id, value)]⟩)

/-- Index of the first `'?'` in a string (Rust `str::find('?')`; byte and
scalar positions of an ASCII character agree). -/
def ffind (c : Char) : List Char → Option Nat
  | [] => none
  | a :: l => if a = c then some 0 else (ffind c l).map (· + 1)

/-- Index of the last occurrence of `c` (Rust `str::rfind`). -/
def rfindIdx (c : Char) : List Char → Option Nat
  | [] => none
  | a :: l =>
    match rfindIdx c l with
    | some i => some (i + 1)
    | none => if a = c then some 0 else none

/-- The split position of `extract_template`:
`url.find('?').unwrap_or_else(|| url.rfind('/').unwrap_or(0))`. -/
def splitIdx (url : List Char) : Nat :=
  match ffind '?' url with
  | some i => i
  | none =>
    match rfindIdx '/' url with
    | some i => i
    | none => 0

/-- `extract_template` from `src/common.rs`: split the URL at `splitIdx`,
intern the template half, return `(template_id, suffix)` and the updated
dictionary.  (The source repeats the interning logic inline; it is identical
to `Dict.intern`.) -/
def extractTemplate (url : List Char) (d : Dict) : (Nat × List Char) × Dict :=
  let i := splitIdx url
  let template := url.take i
  let suffix := url.drop i
  let r := d.intern template
  ((r.1, suffix), r.2)

/-- `reconstruct_url` (`src/hybrid.rs` / `src/blart.rs`): template text plus
suffix, or the suffix alone when the template id is absent. -/
def reconstructUrl (templateId : Nat) (suffix : List Char)
    (dict : List (Nat × List Char)) : List Char :=
  match List.lookup templateId dict with
  | some t => t ++ suffix
  | none => suffix

/-! ## Records (`src/common.rs::OriginalAmp`, `AmpResult`) -/

/-- `OriginalAmp` from `src/common.rs` (the unused `score` field is
omitted). -/
structure OriginalAmp : Type where
  keywords : List (List Char)
  title : List Char
  url : List Char
  fullKeywords : List (List Char × Nat)
  advertiser : List Char
  blockId : Int
  iabCategory : List Char
  clickUrl : List Char
  impressionUrl : List Char
  iconId : List Char
deriving DecidableEq

/-- `AmpResult` from `src/common.rs`. -/
structure AmpResult : Type where
  title : List Char
  url : List Char
  clickUrl : List Char
  impressionUrl : List Char
  advertiser : List Char
  blockId : Int
  iabCategory : List Char
  icon : List Char
  fullKeyword : List Char
deriving DecidableEq

/-- `CompactAmpSuggestion` (`src/hybrid.rs`) = `CompactSuggestion`
(`src/blart.rs`): one packed record per input suggestion. -/
structure CompactAmpSuggestion : Type where
  titleId : Nat
  urlTemplateId : Nat
  urlSuffix : List Char
  clickUrlTemplateId : Nat
  clickUrlSuffix : List Char
  impressionUrlTemplateId : Nat
  impressionUrlSuffix : List Char
  advertiserId : Nat
  blockId : Int
  iabCategoryId : Nat
  iconId : Nat
deriving DecidableEq

/-- `IndexValue` from `src/hybrid.rs`. -/
structure IndexValue : Type where
  suggestionIdx : Nat
  fullKwIdx : Nat
  minPrefixLen : Nat
deriving DecidableEq

/-- `KeywordMetadata` from `src/blart.rs`. -/
structure KeywordMetadata : Type where
  suggestionIdx : Nat
  minPrefixLen : Nat
  fullKeyword : FullKeyword
  collapsedKeyword : List Char
deriving DecidableEq

/-! ## Key-value stores

`HashMap::insert` and `qp_trie::Trie::insert` both replace the stored value
when the key is already present.  A store is an association list with unique
keys; `storeInsert` replaces in place or appends. -/

/-- Map-style insert: replace the value of an existing key, else append. -/
def storeInsert {α : Type} (store : List (List Char × α)) (k : List Char)
    (v : α) : List (List Char × α) :=
  if store.any (fun e => e.1 == k) then
    store.map (fun e => if e.1 == k then (k, v) else e)
  else store ++ [(k, v)]

/-- Insertion step of an insertion sort by key (byte-lexicographic). -/
def insertByKey {α : Type} (e : List Char × α) :
    List (List Char × α) → List (List Char × α)
  | [] => [e]
  | f :: t => if lexLe e.1 f.1 then e :: f :: t else f :: insertByKey e t

/-- Sort an association list by key in byte-lexicographic order; models the
iteration order of `qp_trie::Trie` (and of any ordered byte-keyed map). -/
def sortByKey {α : Type} (l : List (List Char × α)) : List (List Char × α) :=
  l.foldr insertByKey []

/-- One step of the shortest-match loops in `src/hybrid.rs`
(`ShortPrefixCache::lookup` and the trie prefix search of
`HybridAmpIndex::query`): keep the first seen admissible entry with
strictly minimal key byte length.  The accumulator carries the best value
and its key's byte length (`best_key_len`, initially `usize::MAX`, modelled
as `none`). -/
def shortestStep {α : Type} (minOf : α → Nat) (q : List Char) (qlen : Nat)
    (best : Option (α × Nat)) (e : List Char × α) : Option (α × Nat) :=
  if q.isPrefixOf e.1 ∧ minOf e.2 ≤ qlen then
    match best with
    | none => some (e.2, byteLen e.1)
    | some (_, blen) =>
      if byteLen e.1 < blen then some (e.2, byteLen e.1) else best
  else best

/-- The shortest-match loop itself (a left fold over the iterated entries). -/
def shortestGo {α : Type} (minOf : α → Nat) (q : List Char) (qlen : Nat) :
    List (List Char × α) → Option (α × Nat) → Option (α × Nat)
  | [], best => best
  | e :: l, best => shortestGo minOf q qlen l (shortestStep minOf q qlen best e)

/-- Result of a shortest-match scan over `l`. -/
def shortestAdmissible {α : Type} (minOf : α → Nat) (q : List Char)
    (qlen : Nat) (l : List (List Char × α)) : Option α :=
  (shortestGo minOf q qlen l none).map Prod.fst

/-- The ascending range scan of `BlartAmpIndex::query` (and of the spec's
§4.3 full search): walk entries in order; stop at the first key that does
not begin with `q`; select the first admissible key. -/
def rangeScanFirst {α : Type} (minOf : α → Nat) (q : List Char) (qlen : Nat) :
    List (List Char × α) → Option (List Char × α)
  | [] => none
  | (k, v) :: rest =>
    if q.isPrefixOf k = false then none
    else if minOf v ≤ qlen then some (k, v)
    else rangeScanFirst minOf q qlen rest

/-! ## Hybrid index (`src/hybrid.rs`) -/

/-- `HybridAmpIndex`: qp-trie over keys of more than 3 scalars, hash-map
cache over keys of at most 3 scalars, compact record store, run-end-encoded
full keywords and the per-field dictionaries.  (The `keyword_count`
statistics counter is not modelled; `stats` is out of scope of the
claims.) -/
structure HybridAmpIndex : Type where
  mainTrie : List (List Char × IndexValue)
  shortCache : List (List Char × IndexValue)
  suggestions : List CompactAmpSuggestion
  fullKeywords : RunEndEncoding
  advertisers : Dict
  titles : Dict
  urlTemplates : Dict
  clickUrlTemplates : Dict
  impressionUrlTemplates : Dict
  iabCategories : Dict
  icons : Dict
deriving DecidableEq

/-- `HybridAmpIndex::new`. -/
def HybridAmpIndex.new : HybridAmpIndex :=
  ⟨[], [], [], RunEndEncoding.empty, Dict.empty, Dict.empty, Dict.empty,
    Dict.empty, Dict.empty, Dict.empty, Dict.empty⟩

/-- The keyword distribution loop of `HybridAmpIndex::build`: for the
`i`-th collapsed entry `(kw, min_pref)` build
`IndexValue { suggestion_idx := sidx, full_kw_idx := fkwStart + i,
min_prefix_len := min_pref }` and insert it into the short cache when the
key has at most 3 scalars, else into the trie.  The state is the pair
`(short_cache, main_trie)`. -/
def distributeEntries (sidx fkwStart : Nat)
    (es : List (Nat × (List Char × Nat)))
    (st : List (List Char × IndexValue) × List (List Char × IndexValue)) :
    List (List Char × IndexValue) × List (List Char × IndexValue) :=
  es.foldl
    (fun st e =>
      let v : IndexValue := ⟨sidx, fkwStart + e.1, e.2.2⟩
      if e.2.1.length ≤ 3 then (storeInsert st.1 e.2.1 v, st.2)
      else (st.1, storeInsert st.2 e.2.1 v))
    st

/-- One iteration of the `for amp in amps` loop of
`HybridAmpIndex::build`. -/
def hybridBuildStep (idx : HybridAmpIndex) (amp : OriginalAmp) : HybridAmpIndex :=
  let ra := idx.advertisers.intern amp.advertiser
  let rt := idx.titles.intern amp.title
  let ri := idx.iabCategories.intern amp.iabCategory
  let rc := idx.icons.intern amp.iconId
  let ru := extractTemplate amp.url idx.urlTemplates
  let rk := extractTemplate amp.clickUrl idx.clickUrlTemplates
  let rm := extractTemplate amp.impressionUrl idx.impressionUrlTemplates
  let sidx := idx.suggestions.length
  let suggestions := idx.suggestions ++
    [⟨rt.1, ru.1.1, ru.1.2, rk.1.1, rk.1.2, rm.1.1, rm.1.2, ra.1,
      amp.blockId, ri.1, rc.1⟩]
  let fkwStart := idx.fullKeywords.indices.length
  let fullKeywords :=
    if amp.fullKeywords ≠ [] then
      amp.fullKeywords.foldl (fun e p => e.add p.1 p.2) idx.fullKeywords
    else idx.fullKeywords.add amp.advertiser 1
  let stores := distributeEntries sidx fkwStart
    (collapseKeywords amp.keywords).enum (idx.shortCache, idx.mainTrie)
  ⟨stores.2, stores.1, suggestions, fullKeywords, ra.2, rt.2, ru.2, rk.2,
    rm.2, ri.2, rc.2⟩

/-- `HybridAmpIndex::build` over a fresh index. -/
def hybridBuild (amps : List OriginalAmp) : HybridAmpIndex :=
  amps.foldl hybridBuildStep HybridAmpIndex.new

/-- `ShortPrefixCache::lookup` (`src/hybrid.rs`): exact hit subject to the
min-prefix rule, else scan all cache entries for the admissible key of
shortest byte length. -/
def shortCacheLookup (cache : List (List Char × IndexValue)) (q : List Char)
    (qlen : Nat) : Option IndexValue :=
  match
    (match List.lookup q cache with
     | some v => if v.minPrefixLen ≤ qlen then some v else none
     | none => none) with
  | some v => some v
  | none => shortestAdmissible IndexValue.minPrefixLen q qlen cache

/-- The selection phase of `HybridAmpIndex::query`: consult the short cache
for queries of at most 3 scalars, then an exact trie hit, then the
shortest-match scan of `iter_prefix` (which yields the trie entries whose
key begins with the query, in byte-lexicographic order — here: the sorted
store filtered by the same admissibility test inside `shortestStep`). -/
def hybridSelect (idx : HybridAmpIndex) (q : List Char) : Option IndexValue :=
  let qlen := q.length
  match
    (if qlen ≤ 3 then
      match shortCacheLookup idx.shortCache q qlen with
      | some v => if v.minPrefixLen ≤ qlen then some v else none
      | none => none
     else none) with
  | some v => some v
  | none =>
    match
      (match List.lookup q idx.mainTrie with
       | some v => if v.minPrefixLen ≤ qlen then some v else none
       | none => none) with
    | some v => some v
    | none => shortestAdmissible IndexValue.minPrefixLen q qlen (sortByKey idx.mainTrie)

/-- `HybridAmpIndex::build_result`: reconstruct the public record from the
dictionaries; the full keyword falls back to the advertiser when the
run-end lookup misses; an absent suggestion index contributes nothing. -/
def hybridBuildResult (idx : HybridAmpIndex) (sugIdx fkwIdx : Nat) :
    List AmpResult :=
  match idx.suggestions[sugIdx]? with
  | none => []
  | some sug =>
    let title := (List.lookup sug.titleId idx.titles.dict).getD []
    let advertiser := (List.lookup sug.advertiserId idx.advertisers.dict).getD []
    let iabCategory := (List.lookup sug.iabCategoryId idx.iabCategories.dict).getD []
    let icon := (List.lookup sug.iconId idx.icons.dict).getD []
    let fullKeyword :=
      match idx.fullKeywords.get fkwIdx with
      | some kw => kw
      | none => advertiser
    [⟨title,
      reconstructUrl sug.urlTemplateId sug.urlSuffix idx.urlTemplates.dict,
      reconstructUrl sug.clickUrlTemplateId sug.clickUrlSuffix idx.clickUrlTemplates.dict,
      reconstructUrl sug.impressionUrlTemplateId sug.impressionUrlSuffix idx.impressionUrlTemplates.dict,
      advertiser, sug.blockId, iabCategory, icon, fullKeyword⟩]

/-- `HybridAmpIndex::query`: every control path returns `Ok`. -/
def hybridQuery (idx : HybridAmpIndex) (q : List Char) :
    Except (List Char) (List AmpResult) :=
  match hybridSelect idx q with
  | some v => Except.ok (hybridBuildResult idx v.suggestionIdx v.fullKwIdx)
  | none => Except.ok []

/-! ## Blart index (`src/blart.rs`) -/

/-- `BlartAmpIndex`: an adaptive radix tree over the collapsed keys plus the
compact store and dictionaries.  The tree is modelled as an association
list; a built tree is sorted by key (byte-lexicographically) and its
iteration (`range(start..)`) walks keys `≥ start` in ascending order. -/
structure BlartAmpIndex : Type where
  keywordTree : List (List Char × KeywordMetadata)
  suggestions : List CompactAmpSuggestion
  advertisers : Dict
  titles : Dict
  urlTemplates : Dict
  clickTemplates : Dict
  impTemplates : Dict
  iabCategories : Dict
  icons : Dict
deriving DecidableEq

/-- The selection phase of `BlartAmpIndex::query`: iterate
`keyword_tree.range(query..)` (entries with key `≥ query`, ascending),
break at the first key not beginning with the query, select the first key
passing the min-prefix test. -/
def blartSelect (tree : List (List Char × KeywordMetadata)) (q : List Char) :
    Option (List Char × KeywordMetadata) :=
  rangeScanFirst KeywordMetadata.minPrefixLen q q.length
    (tree.filter (fun e => lexLe q e.1))

/-- `BlartAmpIndex::build_result`.  The source indexes
`self.suggestions[metadata.suggestion_idx]` directly (a panic when out of
bounds — impossible for built states, cf. the in-bounds hypothesis of C9);
the model uses the optional access and contributes nothing in that case. -/
def blartBuildResult (idx : BlartAmpIndex) (md : KeywordMetadata) :
    List AmpResult :=
  match idx.suggestions[md.suggestionIdx]? with
  | none => []
  | some sug =>
    let title := (List.lookup sug.titleId idx.titles.dict).getD []
    let advertiser := (List.lookup sug.advertiserId idx.advertisers.dict).getD []
    let iabCategory := (List.lookup sug.iabCategoryId idx.iabCategories.dict).getD []
    let icon := (List.lookup sug.iconId idx.icons.dict).getD []
    let fullKeyword :=
      match md.fullKeyword with
      | FullKeyword.Same => md.collapsedKeyword
      | FullKeyword.Different kw => kw
    [⟨title,
      reconstructUrl sug.urlTemplateId sug.urlSuffix idx.urlTemplates.dict,
      reconstructUrl sug.clickUrlTemplateId sug.clickUrlSuffix idx.clickTemplates.dict,
      reconstructUrl sug.impressionUrlTemplateId sug.impressionUrlSuffix idx.impTemplates.dict,
      advertiser, sug.blockId, iabCategory, icon, fullKeyword⟩]

/-- `BlartAmpIndex::query`: every control path returns `Ok`. -/
def blartQuery (idx : BlartAmpIndex) (q : List Char) :
    Except (List Char) (List AmpResult) :=
  match blartSelect idx.keywordTree q with
  | some r => Except.ok (blartBuildResult idx r.2)
  | none => Except.ok []

/-- The structural invariant of a built hybrid index: cache keys have at
most 3 scalars, trie keys more; every stored value's `min_prefix_len` is at
most the scalar count of its key, and its suggestion index is in bounds. -/
def HybridInv (idx : HybridAmpIndex) : Prop :=
  (∀ e ∈ idx.shortCache, e.1.length ≤ 3 ∧ e.2.minPrefixLen ≤ e.1.length ∧
    e.2.suggestionIdx < idx.suggestions.length) ∧
  (∀ e ∈ idx.mainTrie, 3 < e.1.length ∧ e.2.minPrefixLen ≤ e.1.length ∧
    e.2.suggestionIdx < idx.suggestions.length)

/-- Under non-empty input keywords every stored `min_prefix_len` is
positive (the collapser never emits 0 for a non-empty keyword). -/
def HybridMinPos (idx : HybridAmpIndex) : Prop :=
  ∀ e, (e ∈ idx.shortCache ∨ e ∈ idx.mainTrie) → 1 ≤ e.2.minPrefixLen

/-! ## Dictionary well-formedness and the URL split -/

/-- Coherence of the two halves of a dictionary pair: the `dict` side
inverts the `lookup` side, and every id on the `dict` side is below the
number of assigned ids. -/
def DictWF (d : Dict) : Prop :=
  (∀ p ∈ d.lookup, List.lookup p.2 d.dict = some p.1) ∧
  (∀ q ∈ d.dict, q.1 < d.lookup.length)

instance {ε α : Type} [DecidableEq ε] [DecidableEq α] : DecidableEq (Except ε α)
  | Except.ok a, Except.ok b =>
    if h : a = b then isTrue (by rw [h])
    else isFalse (by intro hh; cases hh; exact h rfl)
  | Except.ok _, Except.error _ => isFalse (by intro h; cases h)
  | Except.error _, Except.ok _ => isFalse (by intro h; cases h)
  | Except.error e, Except.error f =>
    if h : e = f then isTrue (by rw [h])
    else isFalse (by intro hh; cases hh; exact h rfl)

/-! ## Supporting helpers for the claim theorems -/

/-- The block ids carried by a query result (empty on error). -/
def queryBlockIds (r : Except (List Char) (List AmpResult)) : List Int :=
  match r with
  | Except.ok l => l.map AmpResult.blockId
  | Except.error _ => []

/-- The run-end encoding produced by `add("a", 3); add("b", 2)`:
`values = ["a", "b"]`, `indices = [2, 4]` (inclusive run ends). -/
def c7Encoding : RunEndEncoding :=
  (RunEndEncoding.empty.add "a".toList 3).add "b".toList 2

/-- The encoding after `add("x", 0)` on a fresh `RunEndEncoding`. -/
def c10Encoding : RunEndEncoding := RunEndEncoding.empty.add "x".toList 0

/-- A one-entry blart index used to witness C9. -/
def c9DemoBlart : BlartAmpIndex :=
  ⟨[("ab".toList, ⟨0, 1, FullKeyword.Same, "ab".toList⟩)],
    [⟨0, 0, [], 0, [], 0, [], 0, 9, 0, 0⟩],
    Dict.empty, Dict.empty, Dict.empty, Dict.empty, Dict.empty, Dict.empty,
    Dict.empty⟩

/-- The record used to witness C5: a single suggestion with non-empty
keyword `"ab"`. -/
def c5DemoAmp : OriginalAmp :=
  ⟨["ab".toList], "t".toList, "https://w.example/a?x".toList, [],
    "W".toList, 12, "22".toList, "https://w.example/c?x".toList,
    "https://w.example/i?x".toList, "ic".toList⟩

/-- The sorted two-entry tree used to witness C1. -/
def c1DemoTree : List (List Char × KeywordMetadata) :=
  [("ab".toList, ⟨0, 1, FullKeyword.Same, "ab".toList⟩),
   ("b".toList, ⟨1, 1, FullKeyword.Same, "b".toList⟩)]

/-- Record with keyword run `"abcd" … "abcd ez"`, collapsing to the entry
`("abcd ez", 4)`. -/
def c1RecC : OriginalAmp :=
  ⟨["abcd".toList, "abcd ".toList, "abcd e".toList, "abcd ez".toList],
    "tc".toList, "https://c.example/a?x".toList, [], "CeeCee".toList, 3,
    "22".toList, "https://c.example/c?x".toList,
    "https://c.example/i?x".toList, "ic3".toList⟩

/-- Record with keyword run `"abcd", "abcdz"`, collapsing to the entry
`("abcdz", 4)`. -/
def c1RecD : OriginalAmp :=
  ⟨["abcd".toList, "abcdz".toList], "td".toList,
    "https://d.example/a?x".toList, [], "Dee".toList, 4, "22".toList,
    "https://d.example/c?x".toList, "https://d.example/i?x".toList,
    "ic4".toList⟩

/-- The hybrid index built from `c1RecC` and `c1RecD`. -/
def c1CexIdx : HybridAmpIndex := hybridBuild [c1RecC, c1RecD]

/-- Modelled from the spec (§4.3 query, step 2), for the C4 comparison:
the full prefix search over a set of entries iterates keys `≥ q` in
ascending byte-lexicographic order, stops at the first key not beginning
with `q`, and selects the first admissible key — i.e. the
lexicographically smallest admissible key beginning with `q`. -/
def specFullSearch (entries : List (List Char × IndexValue)) (q : List Char) :
    Option (List Char × IndexValue) :=
  rangeScanFirst IndexValue.minPrefixLen q q.length
    ((sortByKey entries).filter (fun e => lexLe q e.1))

/-- Record with keyword run `"a", "ab"`, collapsing to `("ab", 1)`. -/
def c4RecA : OriginalAmp :=
  ⟨["a".toList, "ab".toList], "ta".toList, "https://x.example/a?x".toList,
    [], "Ax".toList, 5, "22".toList, "https://x.example/c?x".toList,
    "https://x.example/i?x".toList, "ic5".toList⟩

/-- Record with keyword run `"a", "a ", "a b"`, collapsing to
`("a b", 1)`. -/
def c4RecB : OriginalAmp :=
  ⟨["a".toList, "a ".toList, "a b".toList], "tb".toList,
    "https://y.example/a?x".toList, [], "Bee".toList, 6, "22".toList,
    "https://y.example/c?x".toList, "https://y.example/i?x".toList,
    "ic6".toList⟩

/-- The hybrid index built from `c4RecA` and `c4RecB`; both collapsed keys
have at most 3 scalars and land in the short cache. -/
def c4CexIdx : HybridAmpIndex := hybridBuild [c4RecA, c4RecB]

/-- First record emitting the collapsed key `"free"` (block id 1). -/
def c2First : OriginalAmp :=
  ⟨["free".toList], "t1".toList, "https://one.example/a?x".toList, [],
    "One".toList, 1, "22".toList, "https://one.example/c?x".toList,
    "https://one.example/i?x".toList, "ic1".toList⟩

/-- Second record emitting the same collapsed key `"free"` (block id 2). -/
def c2Second : OriginalAmp :=
  ⟨["free".toList], "t2".toList, "https://two.example/a?x".toList, [],
    "Two".toList, 2, "22".toList, "https://two.example/c?x".toList,
    "https://two.example/i?x".toList, "ic2".toList⟩

/-- The two-record duplicate-key input for C2. -/
def c2Amps : List OriginalAmp := [c2First, c2Second]

/-- A single record with keyword `"rust"` used to witness C3. -/
def c3WitAmp : OriginalAmp :=
  ⟨["rust".toList], "tw".toList, "https://r.example/a?x".toList, [],
    "Rust".toList, 10, "22".toList, "https://r.example/c?x".toList,
    "https://r.example/i?x".toList, "icw".toList⟩

/-- First record emitting the collapsed key `"gratis"` (block id 7). -/
def c3CexFirst : OriginalAmp :=
  ⟨["gratis".toList], "t7".toList, "https://g1.example/a?x".toList, [],
    "GeeOne".toList, 7, "22".toList, "https://g1.example/c?x".toList,
    "https://g1.example/i?x".toList, "ic7".toList⟩

/-- Second record emitting the collapsed key `"gratis"` (block id 8). -/
def c3CexSecond : OriginalAmp :=
  ⟨["gratis".toList], "t8".toList, "https://g2.example/a?x".toList, [],
    "GeeTwo".toList, 8, "22".toList, "https://g2.example/c?x".toList,
    "https://g2.example/i?x".toList, "ic8".toList⟩

/-- The duplicate-key input for the C3 counterexample. -/
def c3CexAmps : List OriginalAmp := [c3CexFirst, c3CexSecond]

/-- The metadata stored at the key `"ruby"` in `c3DemoBlart`. -/
def c3DemoMd : KeywordMetadata := ⟨0, 4, FullKeyword.Same, "ruby".toList⟩

/-- A one-entry blart index used to witness the blart half of C3. -/
def c3DemoBlart : BlartAmpIndex :=
  ⟨[("ruby".toList, c3DemoMd)],
    [⟨0, 0, [], 0, [], 0, [], 0, 13, 0, 0⟩],
    Dict.empty, Dict.empty, Dict.empty, Dict.empty, Dict.empty, Dict.empty,
    Dict.empty⟩

theorem char_toNat_inj {a b : Char} (h : a.toNat = b.toNat) : a = b :=
  Char.ext (UInt32.ext h)

theorem isPrefixOf_rfl (l : List Char) : l.isPrefixOf l = true := by
  induction l with
  | nil => rfl
  | cons a s ih => simp [List.isPrefixOf, ih]

theorem lexLe_refl (l : List Char) : lexLe l l = true := by
  induction l with
  | nil => rfl
  | cons a s ih => simp [lexLe, ih]

theorem lexLt_le {s t : List Char} (h : lexLt s t = true) : lexLe s t = true := by
  induction s generalizing t with
  | nil => cases t <;> simp [lexLe]
  | cons a s ih =>
    cases t with
    | nil => simp [lexLt] at h
    | cons b t =>
      by_cases hab : a.toNat < b.toNat
      · simp [lexLe, hab]
      · by_cases hba : b.toNat < a.toNat
        · simp [lexLt, hab, hba] at h
        · simp [lexLt, hab, hba] at h
          simpa [lexLe, hab, hba] using ih h

theorem lexLe_total (s t : List Char) : lexLe s t = true ∨ lexLe t s = true := by
  induction s generalizing t with
  | nil => left; rfl
  | cons a s ih =>
    cases t with
    | nil => right; rfl
    | cons b t =>
      by_cases hab : a.toNat < b.toNat
      · left; simp [lexLe, hab]
      · by_cases hba : b.toNat < a.toNat
        · right; simp [lexLe, hba]
        · rcases ih t with h | h
          · left; simpa [lexLe, hab, hba] using h
          · right; simpa [lexLe, hab, hba] using h

theorem lexLe_trans {s t u : List Char} (h₁ : lexLe s t = true)
    (h₂ : lexLe t u = true) : lexLe s u = true := by
  induction s generalizing t u with
  | nil => rfl
  | cons a s ih =>
    cases t with
    | nil => simp [lexLe] at h₁
    | cons b t =>
      cases u with
      | nil => simp [lexLe] at h₂
      | cons c u =>
        by_cases hab : a.toNat < b.toNat <;> by_cases hbc : b.toNat < c.toNat
        · simp [lexLe, show a.toNat < c.toNat from Nat.lt_trans hab hbc]
        · by_cases hcb : c.toNat < b.toNat
          · simp [lexLe, hbc, hcb] at h₂
          · have hbc' : b.toNat = c.toNat := by omega
            simp [lexLe, hbc' ▸ hab]
        · by_cases hba : b.toNat < a.toNat
          · simp [lexLe, hab, hba] at h₁
          · have hab' : a.toNat = b.toNat := by omega
            simp [lexLe, hab' ▸ hbc]
        · by_cases hba : b.toNat < a.toNat
          · simp [lexLe, hab, hba] at h₁
          · by_cases hcb : c.toNat < b.toNat
            · simp [lexLe, hbc, hcb] at h₂
            · simp only [lexLe, if_neg hab, if_neg hba] at h₁
              simp only [lexLe, if_neg hbc, if_neg hcb] at h₂
              have hac : ¬ a.toNat < c.toNat := by omega
              have hca : ¬ c.toNat < a.toNat := by omega
              simp only [lexLe, if_neg hac, if_neg hca]
              exact ih h₁ h₂

theorem pfx_lexLe {p k : List Char} (h : p.isPrefixOf k = true) :
    lexLe p k = true := by
  induction p generalizing k with
  | nil => rfl
  | cons a s ih =>
    cases k with
    | nil => simp [List.isPrefixOf] at h
    | cons b t =>
      simp only [List.isPrefixOf, Bool.and_eq_true, beq_iff_eq] at h
      obtain ⟨rfl, h2⟩ := h
      simpa [lexLe] using ih h2

/-- Keys beginning with `q` form an interval in lexicographic order: if
`q ≤ k₁ ≤ k₂` and `q` is a prefix of `k₂`, then `q` is a prefix of `k₁`. -/
theorem lex_interval {q k₁ k₂ : List Char} (h₁ : lexLe q k₁ = true)
    (h₂ : lexLe k₁ k₂ = true) (hp : q.isPrefixOf k₂ = true) :
    q.isPrefixOf k₁ = true := by
  induction q generalizing k₁ k₂ with
  | nil => simp [List.isPrefixOf]
  | cons c q ih =>
    cases k₂ with
    | nil => simp [List.isPrefixOf] at hp
    | cons d k₂ =>
      simp only [List.isPrefixOf, Bool.and_eq_true, beq_iff_eq] at hp
      obtain ⟨rfl, hp2⟩ := hp
      cases k₁ with
      | nil => simp [lexLe] at h₁
      | cons e k₁ =>
        by_cases hce : c.toNat < e.toNat
        · by_cases hec : e.toNat < c.toNat
          · omega
          · simp [lexLe, hce, hec, Nat.lt_asymm hce] at h₂
        · by_cases hec : e.toNat < c.toNat
          · simp [lexLe, hce, hec] at h₁
          · have : c = e := char_toNat_inj (by omega)
            subst this
            simp only [lexLe, hce, hec, if_false, if_neg] at h₁ h₂
            simp only [List.isPrefixOf, beq_self_eq_true, Bool.true_and]
            exact ih h₁ h₂ hp2

theorem collapseGo_suffix (curr : List Char) (currLen : Nat) :
    ∀ (l : List (List Char)) (n : Nat) (best : List Char),
      (collapseGo curr currLen n best l).2.2 <:+ l := by
  intro l
  induction l with
  | nil => intro n best; exact List.suffix_rfl
  | cons nxt rest ih =>
    intro n best
    by_cases h : curr.isPrefixOf nxt ∧ nxt.length = currLen + n + 1
    · simp only [collapseGo, if_pos h]
      exact (ih (n + 1) nxt).trans (List.suffix_cons nxt rest)
    · simp only [collapseGo, if_neg h]
      exact List.suffix_rfl

theorem collapseGo_best (curr : List Char) (currLen : Nat) :
    ∀ (l : List (List Char)) (n : Nat) (best : List Char),
      (collapseGo curr currLen n best l).1 = best ∨
        (collapseGo curr currLen n best l).1 ∈ l := by
  intro l
  induction l with
  | nil => intro n best; left; rfl
  | cons nxt rest ih =>
    intro n best
    by_cases h : curr.isPrefixOf nxt ∧ nxt.length = currLen + n + 1
    · simp only [collapseGo, if_pos h]
      rcases ih (n + 1) nxt with h' | h'
      · right; rw [h']; exact List.mem_cons_self nxt rest
      · right; exact List.mem_cons_of_mem nxt h'
    · simp only [collapseGo, if_neg h]
      exact Or.inl trivial

theorem collapseGo_pfx_len (curr : List Char) (currLen : Nat) :
    ∀ (l : List (List Char)) (n : Nat) (best : List Char),
      curr.isPrefixOf best = true → best.length = currLen + n →
      curr.isPrefixOf (collapseGo curr currLen n best l).1 = true ∧
        (collapseGo curr currLen n best l).1.length =
          currLen + (collapseGo curr currLen n best l).2.1 := by
  intro l
  induction l with
  | nil => intro n best hp hl; exact ⟨hp, hl⟩
  | cons nxt rest ih =>
    intro n best hp hl
    by_cases h : curr.isPrefixOf nxt ∧ nxt.length = currLen + n + 1
    · simp only [collapseGo, if_pos h]
      exact ih (n + 1) nxt h.1 h.2
    · simp only [collapseGo, if_neg h]
      exact ⟨hp, hl⟩

theorem collapseKeywordsFuel_length :
    ∀ (fuel : Nat) (l : List (List Char)),
      (collapseKeywordsFuel fuel l).length ≤ l.length := by
  intro fuel
  induction fuel with
  | zero => intro l; simp [collapseKeywordsFuel]
  | succ fuel ih =>
    intro l
    cases l with
    | nil => simp [collapseKeywordsFuel]
    | cons curr rest =>
      simp only [collapseKeywordsFuel, List.length_cons]
      have h1 := ih (collapseGo curr curr.length 0 curr rest).2.2
      have h2 := (collapseGo_suffix curr curr.length rest 0 curr).length_le
      omega

theorem collapseKeywordsFuel_mem :
    ∀ (fuel : Nat) (l : List (List Char)) (k : List Char) (m : Nat),
      (k, m) ∈ collapseKeywordsFuel fuel l →
      ∃ w, w ∈ l ∧ m = w.length ∧ w.isPrefixOf k = true ∧ k ∈ l ∧
        m ≤ k.length := by
  intro fuel
  induction fuel with
  | zero => intro l k m h; simp [collapseKeywordsFuel] at h
  | succ fuel ih =>
    intro l k m h
    cases l with
    | nil => simp [collapseKeywordsFuel] at h
    | cons curr rest =>
      simp only [collapseKeywordsFuel, List.mem_cons] at h
      rcases h with h | h
      · have hgo := collapseGo_pfx_len curr curr.length rest 0 curr
          (isPrefixOf_rfl curr) (by omega)
        have hbest := collapseGo_best curr curr.length rest 0 curr
        have hk : k = (collapseGo curr curr.length 0 curr rest).1 := by
          have := congrArg Prod.fst h; simpa using this
        have hm : m = curr.length := by
          have := congrArg Prod.snd h; simpa using this
        subst hk; subst hm
        refine ⟨curr, List.mem_cons_self curr rest, rfl, hgo.1, ?_, ?_⟩
        · rcases hbest with h' | h'
          · rw [h']; exact List.mem_cons_self curr rest
          · exact List.mem_cons_of_mem curr h'
        · omega
      · obtain ⟨w, hw, hm, hpw, hkmem, hmk⟩ := ih _ k m h
        have hsub : (collapseGo curr curr.length 0 curr rest).2.2 <:+ rest :=
          collapseGo_suffix curr curr.length rest 0 curr
        exact ⟨w, List.mem_cons_of_mem curr (hsub.subset hw), hm, hpw,
          List.mem_cons_of_mem curr (hsub.subset hkmem), hmk⟩

theorem collapseKeywords_nil : collapseKeywords [] = [] := rfl

theorem collapseKeywords_singleton (x : List Char) :
    collapseKeywords [x] = [(x, x.length)] := rfl

example : collapseKeywords
    ["fo".toList, "foo".toList, "foob".toList, "fooba".toList, "foobar".toList]
    = [("foobar".toList, 2)] := by decide

example : collapseKeywords ["am".toList, "ama".toList, "amaz".toList,
    "amazo".toList, "amazon".toList] = [("amazon".toList, 2)] := by decide

theorem collapseGoEx_suffix (curr : List Char) (currLen : Nat) :
    ∀ (l : List (List Char × List Char)) (n : Nat) (best : List Char × List Char),
      (collapseGoEx curr currLen n best l).2.2 <:+ l := by
  intro l
  induction l with
  | nil => intro n best; exact List.suffix_rfl
  | cons p rest ih =>
    intro n best
    obtain ⟨nxt, fk⟩ := p
    by_cases h : curr.isPrefixOf nxt ∧ nxt.length = currLen + n + 1
    · simp only [collapseGoEx, if_pos h]
      exact (ih (n + 1) (nxt, fk)).trans (List.suffix_cons (nxt, fk) rest)
    · simp only [collapseGoEx, if_neg h]
      exact List.suffix_rfl

theorem collapseGoEx_best (curr : List Char) (currLen : Nat) :
    ∀ (l : List (List Char × List Char)) (n : Nat) (best : List Char × List Char),
      (collapseGoEx curr currLen n best l).1 = best ∨
        (collapseGoEx curr currLen n best l).1 ∈ l := by
  intro l
  induction l with
  | nil => intro n best; left; rfl
  | cons p rest ih =>
    intro n best
    obtain ⟨nxt, fk⟩ := p
    by_cases h : curr.isPrefixOf nxt ∧ nxt.length = currLen + n + 1
    · simp only [collapseGoEx, if_pos h]
      rcases ih (n + 1) (nxt, fk) with h' | h'
      · right; rw [h']; exact List.mem_cons_self _ rest
      · right; exact List.mem_cons_of_mem _ h'
    · simp only [collapseGoEx, if_neg h]
      exact Or.inl trivial

theorem collapseGoEx_pfx_len (curr : List Char) (currLen : Nat) :
    ∀ (l : List (List Char × List Char)) (n : Nat) (best : List Char × List Char),
      curr.isPrefixOf best.1 = true → best.1.length = currLen + n →
      curr.isPrefixOf (collapseGoEx curr currLen n best l).1.1 = true ∧
        (collapseGoEx curr currLen n best l).1.1.length =
          currLen + (collapseGoEx curr currLen n best l).2.1 := by
  intro l
  induction l with
  | nil => intro n best hp hl; exact ⟨hp, hl⟩
  | cons p rest ih =>
    intro n best hp hl
    obtain ⟨nxt, fk⟩ := p
    by_cases h : curr.isPrefixOf nxt ∧ nxt.length = currLen + n + 1
    · simp only [collapseGoEx, if_pos h]
      exact ih (n + 1) (nxt, fk) h.1 h.2
    · simp only [collapseGoEx, if_neg h]
      exact ⟨hp, hl⟩

theorem collapseKeywordsExFuel_length :
    ∀ (fuel : Nat) (l : List (List Char × List Char)),
      (collapseKeywordsExFuel fuel l).length ≤ l.length := by
  intro fuel
  induction fuel with
  | zero => intro l; simp [collapseKeywordsExFuel]
  | succ fuel ih =>
    intro l
    cases l with
    | nil => simp [collapseKeywordsExFuel]
    | cons p rest =>
      obtain ⟨curr, currFk⟩ := p
      simp only [collapseKeywordsExFuel, List.length_cons]
      have h1 := ih (collapseGoEx curr curr.length 0 (curr, currFk) rest).2.2
      have h2 := (collapseGoEx_suffix curr curr.length rest 0 (curr, currFk)).length_le
      omega

theorem collapseKeywordsExFuel_mem :
    ∀ (fuel : Nat) (l : List (List Char × List Char)) (k : List Char)
      (m : Nat) (fk : FullKeyword),
      (k, m, fk) ∈ collapseKeywordsExFuel fuel l →
      ∃ w, w ∈ l.map Prod.fst ∧ m = w.length ∧ w.isPrefixOf k = true ∧
        k ∈ l.map Prod.fst ∧ m ≤ k.length := by
  intro fuel
  induction fuel with
  | zero => intro l k m fk h; simp [collapseKeywordsExFuel] at h
  | succ fuel ih =>
    intro l k m fk h
    cases l with
    | nil => simp [collapseKeywordsExFuel] at h
    | cons p rest =>
      obtain ⟨curr, currFk⟩ := p
      simp only [collapseKeywordsExFuel, List.mem_cons] at h
      rcases h with h | h
      · have hgo := collapseGoEx_pfx_len curr curr.length rest 0 (curr, currFk)
          (isPrefixOf_rfl curr) (by simp)
        have hbest := collapseGoEx_best curr curr.length rest 0 (curr, currFk)
        have hk : k = (collapseGoEx curr curr.length 0 (curr, currFk) rest).1.1 := by
          have := congrArg Prod.fst h; simpa using this
        have hm : m = curr.length := by
          have := congrArg (fun x => x.2.1) h; simpa using this
        subst hk; subst hm
        refine ⟨curr, by simp, rfl, hgo.1, ?_, ?_⟩
        · rcases hbest with h' | h'
          · rw [h']; simp
          · simp only [List.map_cons, List.mem_cons]
            right
            exact List.mem_map_of_mem Prod.fst h'
        · omega
      · obtain ⟨w, hw, hm, hpw, hkmem, hmk⟩ := ih _ k m fk h
        have hsub : (collapseGoEx curr curr.length 0 (curr, currFk) rest).2.2 <:+ rest :=
          collapseGoEx_suffix curr curr.length rest 0 (curr, currFk)
        have hmap : ∀ x, x ∈ (collapseGoEx curr curr.length 0 (curr, currFk) rest).2.2.map Prod.fst →
            x ∈ ((curr, currFk) :: rest).map Prod.fst := by
          intro x hx
          obtain ⟨e, he, rfl⟩ := List.mem_map.mp hx
          exact List.mem_map_of_mem Prod.fst (List.mem_cons_of_mem _ (hsub.subset he))
        exact ⟨w, hmap w hw, hm, hpw, hmap k hkmem, hmk⟩

theorem collapseKeywordsEx_length (keywords : List (List Char))
    (fullKeywords : List (List Char × Nat)) :
    (collapseKeywordsEx keywords fullKeywords).length ≤ keywords.length := by
  have h1 := collapseKeywordsExFuel_length
    (keywords.zip (expandRLE fullKeywords)).length (keywords.zip (expandRLE fullKeywords))
  have h2 : (keywords.zip (expandRLE fullKeywords)).length ≤ keywords.length := by
    simp [List.length_zip]
  exact le_trans h1 h2

theorem collapseKeywordsEx_mem (keywords : List (List Char))
    (fullKeywords : List (List Char × Nat)) (k : List Char) (m : Nat)
    (fk : FullKeyword) (h : (k, m, fk) ∈ collapseKeywordsEx keywords fullKeywords) :
    ∃ w, w ∈ keywords ∧ m = w.length ∧ w.isPrefixOf k = true ∧
      k ∈ keywords ∧ m ≤ k.length := by
  obtain ⟨w, hw, hm, hpw, hkmem, hmk⟩ := collapseKeywordsExFuel_mem _ _ k m fk h
  have hfst : ∀ x, x ∈ (keywords.zip (expandRLE fullKeywords)).map Prod.fst →
      x ∈ keywords := by
    intro x hx
    obtain ⟨⟨a, b⟩, he, rfl⟩ := List.mem_map.mp hx
    exact (List.of_mem_zip he).1
  exact ⟨w, hfst w hw, hm, hpw, hfst k hkmem, hmk⟩

example : ((RunEndEncoding.empty.add "a".toList 3).add "b".toList 2).indices
    = [2, 4] := by decide

/-! ## Store and scan lemmas -/

theorem lookup_mem {α : Type} {k : List Char} {v : α} :
    ∀ {l : List (List Char × α)}, List.lookup k l = some v → (k, v) ∈ l := by
  intro l
  induction l with
  | nil => intro h; simp [List.lookup] at h
  | cons hd t ih =>
    intro h
    obtain ⟨a, b⟩ := hd
    by_cases hk : (k == a) = true
    · have hka : k = a := eq_of_beq hk
      simp only [List.lookup, hk] at h
      obtain rfl : b = v := by injection h
      subst hka
      exact List.mem_cons_self _ _
    · have hk' : (k == a) = false := Bool.of_not_eq_true hk
      simp only [List.lookup, hk'] at h
      exact List.mem_cons_of_mem _ (ih h)

theorem storeInsert_mem {α : Type} {s : List (List Char × α)} {k : List Char}
    {v : α} {e : List Char × α} (h : e ∈ storeInsert s k v) :
    e ∈ s ∨ e = (k, v) := by
  unfold storeInsert at h
  by_cases hc : s.any (fun e => e.1 == k)
  · rw [if_pos hc] at h
    obtain ⟨f, hf, hfe⟩ := List.mem_map.mp h
    by_cases hk : f.1 == k
    · right; rw [← hfe, if_pos hk]
    · left; rw [← hfe, if_neg hk]; exact hf
  · rw [if_neg hc] at h
    rcases List.mem_append.mp h with h' | h'
    · left; exact h'
    · right; simpa using h'

theorem mem_insertByKey {α : Type} {e a : List Char × α} :
    ∀ {l : List (List Char × α)}, a ∈ insertByKey e l ↔ a = e ∨ a ∈ l := by
  intro l
  induction l with
  | nil => simp [insertByKey]
  | cons f t ih =>
    by_cases hc : lexLe e.1 f.1
    · simp [insertByKey, hc, List.mem_cons]
    · simp only [insertByKey, if_neg hc, List.mem_cons, ih]
      tauto

theorem mem_sortByKey {α : Type} {a : List Char × α} :
    ∀ {l : List (List Char × α)}, a ∈ sortByKey l ↔ a ∈ l := by
  intro l
  induction l with
  | nil => simp [sortByKey]
  | cons f t ih =>
    simp only [sortByKey, List.foldr_cons, mem_insertByKey, List.mem_cons]
    rw [show t.foldr insertByKey [] = sortByKey t from rfl, ih]

theorem insertByKey_pairwise {α : Type} {e : List Char × α} :
    ∀ {l : List (List Char × α)},
      l.Pairwise (fun a b => lexLe a.1 b.1 = true) →
      (insertByKey e l).Pairwise (fun a b => lexLe a.1 b.1 = true) := by
  intro l
  induction l with
  | nil => intro _; simp [insertByKey]
  | cons f t ih =>
    intro hp
    rw [List.pairwise_cons] at hp
    obtain ⟨hf, ht⟩ := hp
    by_cases hc : lexLe e.1 f.1
    · rw [insertByKey, if_pos hc]
      refine List.Pairwise.cons ?_ (List.Pairwise.cons hf ht)
      intro x hx
      rcases List.mem_cons.mp hx with rfl | hx'
      · exact hc
      · exact lexLe_trans hc (hf x hx')
    · rw [insertByKey, if_neg hc]
      refine List.Pairwise.cons ?_ (ih ht)
      intro x hx
      rcases mem_insertByKey.mp hx with hxe | hx'
      · rw [hxe]
        rcases lexLe_total e.1 f.1 with h | h
        · exact absurd h hc
        · exact h
      · exact hf x hx'

theorem sortByKey_pairwise {α : Type} :
    ∀ (l : List (List Char × α)),
      (sortByKey l).Pairwise (fun a b => lexLe a.1 b.1 = true) := by
  intro l
  induction l with
  | nil => simp [sortByKey]
  | cons f t ih => exact insertByKey_pairwise ih

theorem shortestGo_none {α : Type} (minOf : α → Nat) (q : List Char) (qlen : Nat) :
    ∀ (l : List (List Char × α)) (acc : Option (α × Nat)),
      shortestGo minOf q qlen l acc = none →
      acc = none ∧ ∀ e ∈ l, ¬(q.isPrefixOf e.1 = true ∧ minOf e.2 ≤ qlen) := by
  intro l
  induction l with
  | nil => intro acc h; exact ⟨h, by simp⟩
  | cons hd t ih =>
    intro acc h
    obtain ⟨hacc', hrest⟩ := ih (shortestStep minOf q qlen acc hd) h
    by_cases hadm : q.isPrefixOf hd.1 = true ∧ minOf hd.2 ≤ qlen
    · exfalso
      cases hx : acc with
      | none =>
        rw [hx] at hacc'
        simp only [shortestStep, if_pos hadm] at hacc'
        exact Option.noConfusion hacc'
      | some p =>
        obtain ⟨av, ab⟩ := p
        rw [hx] at hacc'
        simp only [shortestStep, if_pos hadm] at hacc'
        by_cases hb : byteLen hd.1 < ab
        · rw [if_pos hb] at hacc'; exact Option.noConfusion hacc'
        · rw [if_neg hb] at hacc'; exact Option.noConfusion hacc'
    · have hstep : shortestStep minOf q qlen acc hd = acc := by
        simp only [shortestStep, if_neg hadm]
      rw [hstep] at hacc'
      refine ⟨hacc', ?_⟩
      intro x hx
      rcases List.mem_cons.mp hx with rfl | hx'
      · exact hadm
      · exact hrest x hx'

theorem shortestGo_some {α : Type} (minOf : α → Nat) (q : List Char) (qlen : Nat) :
    ∀ (l : List (List Char × α)) (acc : Option (α × Nat)) (v : α) (b : Nat),
      shortestGo minOf q qlen l acc = some (v, b) →
      (acc = some (v, b) ∨
        ∃ k, (k, v) ∈ l ∧ q.isPrefixOf k = true ∧ minOf v ≤ qlen ∧ b = byteLen k) ∧
      (∀ e ∈ l, q.isPrefixOf e.1 = true → minOf e.2 ≤ qlen → b ≤ byteLen e.1) ∧
      (∀ p, acc = some p → b ≤ p.2) := by
  intro l
  induction l with
  | nil =>
    intro acc v b h
    refine ⟨Or.inl h, by simp, ?_⟩
    intro p hp
    rw [hp] at h
    cases h
    exact Nat.le_refl _
  | cons hd t ih =>
    intro acc v b h
    have hrec : ∀ acc', shortestStep minOf q qlen acc hd = acc' →
        shortestGo minOf q qlen t acc' = some (v, b) := by
      intro acc' hs
      rw [← hs]
      exact h
    by_cases hadm : q.isPrefixOf hd.1 = true ∧ minOf hd.2 ≤ qlen
    · cases hx : acc with
      | none =>
        have hstep : shortestStep minOf q qlen acc hd = some (hd.2, byteLen hd.1) := by
          rw [hx]; simp only [shortestStep, if_pos hadm]
        obtain ⟨ho, hm, ha⟩ := ih _ v b (hrec _ hstep)
        have hble : b ≤ byteLen hd.1 := ha (hd.2, byteLen hd.1) rfl
        refine ⟨?_, ?_, ?_⟩
        · rcases ho with h'' | ⟨k, hk, h1, h2, h3⟩
          · have hv : v = hd.2 := by
              injection h'' with h1; exact (congrArg Prod.fst h1).symm
            have hb' : b = byteLen hd.1 := by
              injection h'' with h1; exact (congrArg Prod.snd h1).symm
            subst hv; subst hb'
            exact Or.inr ⟨hd.1,
              by rw [Prod.mk.eta]; exact List.mem_cons_self _ _,
              hadm.1, hadm.2, rfl⟩
          · exact Or.inr ⟨k, List.mem_cons_of_mem _ hk, h1, h2, h3⟩
        · intro x hx'
          rcases List.mem_cons.mp hx' with rfl | hx''
          · intro _ _; exact hble
          · exact hm x hx''
        · intro p hp; exact Option.noConfusion hp
      | some p =>
        obtain ⟨av, ab⟩ := p
        by_cases hb : byteLen hd.1 < ab
        · have hstep : shortestStep minOf q qlen acc hd = some (hd.2, byteLen hd.1) := by
            rw [hx]; simp only [shortestStep, if_pos hadm]; rw [if_pos hb]
          obtain ⟨ho, hm, ha⟩ := ih _ v b (hrec _ hstep)
          have hble : b ≤ byteLen hd.1 := ha (hd.2, byteLen hd.1) rfl
          refine ⟨?_, ?_, ?_⟩
          · rcases ho with h'' | ⟨k, hk, h1, h2, h3⟩
            · have hv : v = hd.2 := by
                injection h'' with h1; exact (congrArg Prod.fst h1).symm
              have hb' : b = byteLen hd.1 := by
                injection h'' with h1; exact (congrArg Prod.snd h1).symm
              subst hv; subst hb'
              exact Or.inr ⟨hd.1,
                by rw [Prod.mk.eta]; exact List.mem_cons_self _ _,
                hadm.1, hadm.2, rfl⟩
            · exact Or.inr ⟨k, List.mem_cons_of_mem _ hk, h1, h2, h3⟩
          · intro x hx'
            rcases List.mem_cons.mp hx' with rfl | hx''
            · intro _ _; exact hble
            · exact hm x hx''
          · intro p hp
            obtain rfl : p = (av, ab) := by injection hp with h1; exact h1.symm
            show b ≤ ab
            omega
        · have hstep : shortestStep minOf q qlen acc hd = some (av, ab) := by
            rw [hx]; simp only [shortestStep, if_pos hadm]; rw [if_neg hb]
          obtain ⟨ho, hm, ha⟩ := ih _ v b (hrec _ hstep)
          have hble : b ≤ ab := ha (av, ab) rfl
          refine ⟨?_, ?_, ?_⟩
          · rcases ho with h'' | ⟨k, hk, h1, h2, h3⟩
            · exact Or.inl h''
            · exact Or.inr ⟨k, List.mem_cons_of_mem _ hk, h1, h2, h3⟩
          · intro x hx'
            rcases List.mem_cons.mp hx' with rfl | hx''
            · intro _ _; omega
            · exact hm x hx''
          · intro p hp
            obtain rfl : p = (av, ab) := by injection hp with h1; exact h1.symm
            exact hble
    · have hstep : shortestStep minOf q qlen acc hd = acc := by
        simp only [shortestStep, if_neg hadm]
      obtain ⟨ho, hm, ha⟩ := ih _ v b (hrec _ hstep)
      refine ⟨?_, ?_, ha⟩
      · rcases ho with h' | ⟨k, hk, h1, h2, h3⟩
        · exact Or.inl h'
        · exact Or.inr ⟨k, List.mem_cons_of_mem _ hk, h1, h2, h3⟩
      · intro x hx'
        rcases List.mem_cons.mp hx' with rfl | hx''
        · intro hpfx hm'; exact absurd ⟨hpfx, hm'⟩ hadm
        · exact hm x hx''

theorem shortestAdmissible_none_iff {α : Type} (minOf : α → Nat) (q : List Char)
    (qlen : Nat) (l : List (List Char × α)) :
    shortestAdmissible minOf q qlen l = none ↔
      ∀ e ∈ l, ¬(q.isPrefixOf e.1 = true ∧ minOf e.2 ≤ qlen) := by
  constructor
  · intro h
    rw [shortestAdmissible, Option.map_eq_none'] at h
    exact (shortestGo_none minOf q qlen l none h).2
  · intro h
    cases hx : shortestGo minOf q qlen l none with
    | none => rw [shortestAdmissible, hx]; rfl
    | some p =>
      exfalso
      obtain ⟨v, b⟩ := p
      obtain ⟨horigin, _, _⟩ := shortestGo_some minOf q qlen l none v b hx
      rcases horigin with h' | ⟨k, hk, h1, h2, _⟩
      · cases h'
      · exact h (k, v) hk ⟨h1, h2⟩

theorem shortestAdmissible_some {α : Type} {minOf : α → Nat} {q : List Char}
    {qlen : Nat} {l : List (List Char × α)} {v : α}
    (h : shortestAdmissible minOf q qlen l = some v) :
    ∃ k, (k, v) ∈ l ∧ q.isPrefixOf k = true ∧ minOf v ≤ qlen ∧
      ∀ e ∈ l, q.isPrefixOf e.1 = true → minOf e.2 ≤ qlen →
        byteLen k ≤ byteLen e.1 := by
  rw [shortestAdmissible] at h
  obtain ⟨⟨v', b⟩, hx, hv⟩ := Option.map_eq_some'.mp h
  simp only at hv
  rw [← hv]
  obtain ⟨horigin, hmin, _⟩ := shortestGo_some minOf q qlen l none v' b hx
  rcases horigin with h' | ⟨k, hk, h1, h2, h3⟩
  · cases h'
  · subst h3
    exact ⟨k, hk, h1, h2, hmin⟩

theorem rangeScanFirst_weak_sound {α : Type} {minOf : α → Nat} {q : List Char}
    {qlen : Nat} {k : List Char} {v : α} :
    ∀ {l : List (List Char × α)}, rangeScanFirst minOf q qlen l = some (k, v) →
      (k, v) ∈ l ∧ q.isPrefixOf k = true ∧ minOf v ≤ qlen := by
  intro l
  induction l with
  | nil => intro h; cases h
  | cons e t ih =>
    intro h
    obtain ⟨k0, v0⟩ := e
    by_cases hpfx : q.isPrefixOf k0 = false
    · rw [rangeScanFirst, if_pos hpfx] at h; cases h
    · by_cases hadm : minOf v0 ≤ qlen
      · rw [rangeScanFirst, if_neg hpfx, if_pos hadm] at h
        cases h
        exact ⟨List.mem_cons_self _ _, Bool.of_not_eq_false hpfx, hadm⟩
      · rw [rangeScanFirst, if_neg hpfx, if_neg hadm] at h
        obtain ⟨h1, h2, h3⟩ := ih h
        exact ⟨List.mem_cons_of_mem _ h1, h2, h3⟩

theorem rangeScanFirst_min {α : Type} {minOf : α → Nat} {q : List Char}
    {qlen : Nat} {k : List Char} {v : α} :
    ∀ {l : List (List Char × α)},
      l.Pairwise (fun a b => lexLt a.1 b.1 = true) →
      rangeScanFirst minOf q qlen l = some (k, v) →
      ∀ e ∈ l, q.isPrefixOf e.1 = true → minOf e.2 ≤ qlen →
        lexLe k e.1 = true := by
  intro l
  induction l with
  | nil => intro _ h; cases h
  | cons e t ih =>
    intro hp h
    rw [List.pairwise_cons] at hp
    obtain ⟨hf, ht⟩ := hp
    obtain ⟨k0, v0⟩ := e
    by_cases hpfx : q.isPrefixOf k0 = false
    · rw [rangeScanFirst, if_pos hpfx] at h; cases h
    · by_cases hadm : minOf v0 ≤ qlen
      · rw [rangeScanFirst, if_neg hpfx, if_pos hadm] at h
        cases h
        intro x hx _ _
        rcases List.mem_cons.mp hx with rfl | hx'
        · exact lexLe_refl _
        · exact lexLt_le (hf x hx')
      · rw [rangeScanFirst, if_neg hpfx, if_neg hadm] at h
        intro x hx hxp hxm
        rcases List.mem_cons.mp hx with rfl | hx'
        · exact absurd hxm hadm
        · exact ih ht h x hx' hxp hxm

theorem rangeScanFirst_none {α : Type} {minOf : α → Nat} {q : List Char}
    {qlen : Nat} :
    ∀ {l : List (List Char × α)},
      (∀ e ∈ l, q.isPrefixOf e.1 = true → ¬ minOf e.2 ≤ qlen) →
      rangeScanFirst minOf q qlen l = none := by
  intro l
  induction l with
  | nil => intro _; rfl
  | cons e t ih =>
    intro h
    obtain ⟨k0, v0⟩ := e
    by_cases hpfx : q.isPrefixOf k0 = false
    · rw [rangeScanFirst, if_pos hpfx]
    · rw [rangeScanFirst, if_neg hpfx,
        if_neg (h (k0, v0) (List.mem_cons_self _ _) (Bool.of_not_eq_false hpfx))]
      exact ih (fun e he => h e (List.mem_cons_of_mem _ he))

theorem rangeScanFirst_complete {α : Type} {minOf : α → Nat} {q : List Char}
    {qlen : Nat} {e₀ : List Char × α} :
    ∀ {l : List (List Char × α)},
      l.Pairwise (fun a b => lexLe a.1 b.1 = true) →
      (∀ e ∈ l, lexLe q e.1 = true) →
      e₀ ∈ l → q.isPrefixOf e₀.1 = true → minOf e₀.2 ≤ qlen →
      (rangeScanFirst minOf q qlen l).isSome = true := by
  intro l
  induction l with
  | nil => intro _ _ h; cases h
  | cons e t ih =>
    intro hp hge hmem hpfx0 hadm0
    rw [List.pairwise_cons] at hp
    obtain ⟨hf, ht⟩ := hp
    obtain ⟨k0, v0⟩ := e
    by_cases hpfx : q.isPrefixOf k0 = false
    · exfalso
      rcases List.mem_cons.mp hmem with rfl | hx'
      · rw [hpfx0] at hpfx; cases hpfx
      · have h1 : lexLe q k0 = true := hge (k0, v0) (List.mem_cons_self _ _)
        have h2 : lexLe k0 e₀.1 = true := hf e₀ hx'
        have := lex_interval h1 h2 hpfx0
        rw [this] at hpfx; cases hpfx
    · by_cases hadm : minOf v0 ≤ qlen
      · rw [rangeScanFirst, if_neg hpfx, if_pos hadm]; rfl
      · rw [rangeScanFirst, if_neg hpfx, if_neg hadm]
        rcases List.mem_cons.mp hmem with rfl | hx'
        · exact absurd hadm0 hadm
        · exact ih ht (fun e he => hge e (List.mem_cons_of_mem _ he)) hx' hpfx0 hadm0

/-! ## Build invariants of the hybrid index -/

theorem mem_of_mem_enum {α : Type} {i : Nat} {x : α} {l : List α}
    (h : (i, x) ∈ l.enum) : x ∈ l := by
  rw [List.enum_eq_zip_range] at h
  exact (List.of_mem_zip h).2

theorem distributeEntries_fst_mem {sidx fkwStart : Nat}
    {e : List Char × IndexValue} :
    ∀ (es : List (Nat × (List Char × Nat)))
      (st : List (List Char × IndexValue) × List (List Char × IndexValue)),
      e ∈ (distributeEntries sidx fkwStart es st).1 →
      e ∈ st.1 ∨ ∃ i kw m, (i, (kw, m)) ∈ es ∧
        e = (kw, ⟨sidx, fkwStart + i, m⟩) ∧ kw.length ≤ 3 := by
  intro es
  induction es with
  | nil => intro st h; exact Or.inl h
  | cons hd rest ih =>
    intro st h
    obtain ⟨i, kw, m⟩ := hd
    by_cases hlen : kw.length ≤ 3
    · have h' : distributeEntries sidx fkwStart ((i, kw, m) :: rest) st =
          distributeEntries sidx fkwStart rest
            (storeInsert st.1 kw ⟨sidx, fkwStart + i, m⟩, st.2) := by
        simp only [distributeEntries, List.foldl_cons, if_pos hlen]
      rw [h'] at h
      rcases ih _ h with h'' | ⟨i', kw', m', hmem, heq, hl⟩
      · rcases storeInsert_mem h'' with h3 | h3
        · exact Or.inl h3
        · exact Or.inr ⟨i, kw, m, List.mem_cons_self _ _, h3, hlen⟩
      · exact Or.inr ⟨i', kw', m', List.mem_cons_of_mem _ hmem, heq, hl⟩
    · have h' : distributeEntries sidx fkwStart ((i, kw, m) :: rest) st =
          distributeEntries sidx fkwStart rest
            (st.1, storeInsert st.2 kw ⟨sidx, fkwStart + i, m⟩) := by
        simp only [distributeEntries, List.foldl_cons, if_neg hlen]
      rw [h'] at h
      rcases ih _ h with h'' | ⟨i', kw', m', hmem, heq, hl⟩
      · exact Or.inl h''
      · exact Or.inr ⟨i', kw', m', List.mem_cons_of_mem _ hmem, heq, hl⟩

theorem distributeEntries_snd_mem {sidx fkwStart : Nat}
    {e : List Char × IndexValue} :
    ∀ (es : List (Nat × (List Char × Nat)))
      (st : List (List Char × IndexValue) × List (List Char × IndexValue)),
      e ∈ (distributeEntries sidx fkwStart es st).2 →
      e ∈ st.2 ∨ ∃ i kw m, (i, (kw, m)) ∈ es ∧
        e = (kw, ⟨sidx, fkwStart + i, m⟩) ∧ ¬ kw.length ≤ 3 := by
  intro es
  induction es with
  | nil => intro st h; exact Or.inl h
  | cons hd rest ih =>
    intro st h
    obtain ⟨i, kw, m⟩ := hd
    by_cases hlen : kw.length ≤ 3
    · have h' : distributeEntries sidx fkwStart ((i, kw, m) :: rest) st =
          distributeEntries sidx fkwStart rest
            (storeInsert st.1 kw ⟨sidx, fkwStart + i, m⟩, st.2) := by
        simp only [distributeEntries, List.foldl_cons, if_pos hlen]
      rw [h'] at h
      rcases ih _ h with h'' | ⟨i', kw', m', hmem, heq, hl⟩
      · exact Or.inl h''
      · exact Or.inr ⟨i', kw', m', List.mem_cons_of_mem _ hmem, heq, hl⟩
    · have h' : distributeEntries sidx fkwStart ((i, kw, m) :: rest) st =
          distributeEntries sidx fkwStart rest
            (st.1, storeInsert st.2 kw ⟨sidx, fkwStart + i, m⟩) := by
        simp only [distributeEntries, List.foldl_cons, if_neg hlen]
      rw [h'] at h
      rcases ih _ h with h'' | ⟨i', kw', m', hmem, heq, hl⟩
      · rcases storeInsert_mem h'' with h3 | h3
        · exact Or.inl h3
        · exact Or.inr ⟨i, kw, m, List.mem_cons_self _ _, h3, hlen⟩
      · exact Or.inr ⟨i', kw', m', List.mem_cons_of_mem _ hmem, heq, hl⟩

theorem collapseKeywords_mem {keywords : List (List Char)} {k : List Char}
    {m : Nat} (h : (k, m) ∈ collapseKeywords keywords) :
    ∃ w, w ∈ keywords ∧ m = w.length ∧ w.isPrefixOf k = true ∧
      k ∈ keywords ∧ m ≤ k.length :=
  collapseKeywordsFuel_mem keywords.length keywords k m h

theorem hybridBuildStep_inv {idx : HybridAmpIndex} {amp : OriginalAmp}
    (hinv : HybridInv idx) : HybridInv (hybridBuildStep idx amp) := by
  obtain ⟨hc, ht⟩ := hinv
  constructor
  · intro e he
    rcases distributeEntries_fst_mem _ _ he with h | ⟨i, kw, m, hmem, rfl, hlen⟩
    · obtain ⟨h1, h2, h3⟩ := hc e h
      refine ⟨h1, h2, ?_⟩
      simp only [hybridBuildStep, List.length_append, List.length_cons]
      omega
    · have hm := collapseKeywords_mem (mem_of_mem_enum hmem)
      obtain ⟨w, _, _, _, _, hml⟩ := hm
      refine ⟨hlen, hml, ?_⟩
      simp only [hybridBuildStep, List.length_append, List.length_cons]
      omega
  · intro e he
    rcases distributeEntries_snd_mem _ _ he with h | ⟨i, kw, m, hmem, rfl, hlen⟩
    · obtain ⟨h1, h2, h3⟩ := ht e h
      refine ⟨h1, h2, ?_⟩
      simp only [hybridBuildStep, List.length_append, List.length_cons]
      omega
    · have hm := collapseKeywords_mem (mem_of_mem_enum hmem)
      obtain ⟨w, _, _, _, _, hml⟩ := hm
      refine ⟨?_, hml, ?_⟩
      · show 3 < kw.length
        omega
      · simp only [hybridBuildStep, List.length_append, List.length_cons]
        omega

theorem hybridBuild_inv (amps : List OriginalAmp) :
    HybridInv (hybridBuild amps) := by
  have hgen : ∀ (l : List OriginalAmp) (idx : HybridAmpIndex),
      HybridInv idx → HybridInv (l.foldl hybridBuildStep idx) := by
    intro l
    induction l with
    | nil => intro idx h; exact h
    | cons a t ih => intro idx h; exact ih _ (hybridBuildStep_inv h)
  refine hgen amps HybridAmpIndex.new ⟨?_, ?_⟩ <;> intro e he <;> cases he

theorem hybridBuildStep_minpos {idx : HybridAmpIndex} {amp : OriginalAmp}
    (hkw : ∀ w ∈ amp.keywords, w ≠ [])
    (hmp : HybridMinPos idx) : HybridMinPos (hybridBuildStep idx amp) := by
  intro e he
  rcases he with he | he
  · rcases distributeEntries_fst_mem _ _ he with h | ⟨i, kw, m, hmem, rfl, _⟩
    · exact hmp e (Or.inl h)
    · obtain ⟨w, hw, hml, _, _, _⟩ := collapseKeywords_mem (mem_of_mem_enum hmem)
      have : w ≠ [] := hkw w hw
      simp only
      cases hww : w with
      | nil => exact absurd hww this
      | cons c cs => rw [hml, hww]; simp
  · rcases distributeEntries_snd_mem _ _ he with h | ⟨i, kw, m, hmem, rfl, _⟩
    · exact hmp e (Or.inr h)
    · obtain ⟨w, hw, hml, _, _, _⟩ := collapseKeywords_mem (mem_of_mem_enum hmem)
      have : w ≠ [] := hkw w hw
      simp only
      cases hww : w with
      | nil => exact absurd hww this
      | cons c cs => rw [hml, hww]; simp

theorem hybridBuild_minpos (amps : List OriginalAmp)
    (h : ∀ amp ∈ amps, ∀ w ∈ amp.keywords, w ≠ []) :
    HybridMinPos (hybridBuild amps) := by
  have hgen : ∀ (l : List OriginalAmp) (idx : HybridAmpIndex),
      (∀ amp ∈ l, ∀ w ∈ amp.keywords, w ≠ []) →
      HybridMinPos idx → HybridMinPos (l.foldl hybridBuildStep idx) := by
    intro l
    induction l with
    | nil => intro idx _ h'; exact h'
    | cons a t ih =>
      intro idx hl h'
      exact ih _ (fun amp hm => hl amp (List.mem_cons_of_mem _ hm))
        (hybridBuildStep_minpos (hl a (List.mem_cons_self _ _)) h')
  refine hgen amps HybridAmpIndex.new h ?_
  intro e he
  rcases he with he | he <;> cases he

theorem natLookup_mem {β : Type} {n : Nat} {b : β} :
    ∀ {l : List (Nat × β)}, List.lookup n l = some b → (n, b) ∈ l := by
  intro l
  induction l with
  | nil => intro h; simp [List.lookup] at h
  | cons hd t ih =>
    intro h
    obtain ⟨a, x⟩ := hd
    by_cases hk : (n == a) = true
    · have hka : n = a := eq_of_beq hk
      simp only [List.lookup, hk] at h
      have hbv : x = b := by simpa using h
      rw [hka, ← hbv]
      exact List.mem_cons_self _ _
    · have hk' : (n == a) = false := Bool.of_not_eq_true hk
      simp only [List.lookup, hk'] at h
      exact List.mem_cons_of_mem _ (ih h)

theorem natLookup_append_left {β : Type} {n : Nat} {b : β} :
    ∀ {l1 : List (Nat × β)} (l2 : List (Nat × β)),
      List.lookup n l1 = some b → List.lookup n (l1 ++ l2) = some b := by
  intro l1
  induction l1 with
  | nil => intro l2 h; simp [List.lookup] at h
  | cons hd t ih =>
    intro l2 h
    obtain ⟨a, x⟩ := hd
    by_cases hk : (n == a) = true
    · simp only [List.lookup, hk] at h ⊢
      exact h
    · have hk' : (n == a) = false := Bool.of_not_eq_true hk
      simp only [List.lookup, hk', List.cons_append] at h ⊢
      exact ih l2 h

theorem natLookup_append_fresh {β : Type} {n : Nat} {v : β} :
    ∀ {l : List (Nat × β)}, (∀ q ∈ l, q.1 ≠ n) →
      List.lookup n (l ++ [(n, v)]) = some v := by
  intro l
  induction l with
  | nil => intro _; simp [List.lookup]
  | cons hd t ih =>
    intro h
    obtain ⟨a, x⟩ := hd
    have hne : a ≠ n := h (a, x) (List.mem_cons_self _ _)
    have hk' : (n == a) = false := by
      simp only [beq_eq_false_iff_ne, ne_eq]
      omega
    simp only [List.cons_append, List.lookup, hk']
    exact ih (fun q hq => h q (List.mem_cons_of_mem _ hq))

theorem intern_wf {d : Dict} {v : List Char} (h : DictWF d) :
    DictWF (d.intern v).2 ∧
      List.lookup (d.intern v).1 (d.intern v).2.dict = some v := by
  obtain ⟨h1, h2⟩ := h
  cases hx : List.lookup v d.lookup with
  | some id =>
    have heq : d.intern v = (id, d) := by
      simp only [Dict.intern, hx]
    rw [heq]
    exact ⟨⟨h1, h2⟩, h1 (v, id) (lookup_mem hx)⟩
  | none =>
    have heq : d.intern v =
        (d.lookup.length,
          ⟨d.lookup ++ [(v, d.lookup.length)],
            d.dict ++ [(d.lookup.length, v)]⟩) := by
      simp only [Dict.intern, hx]
    rw [heq]
    have hfresh : List.lookup d.lookup.length
        (d.dict ++ [(d.lookup.length, v)]) = some v :=
      natLookup_append_fresh (fun q hq => Nat.ne_of_lt (h2 q hq))
    refine ⟨⟨?_, ?_⟩, hfresh⟩
    · intro p hp
      rcases List.mem_append.mp hp with hp' | hp'
      · exact natLookup_append_left _ (h1 p hp')
      · have : p = (v, d.lookup.length) := by simpa using hp'
        rw [this]
        exact hfresh
    · intro q hq
      simp only [List.length_append, List.length_cons, List.length_nil]
      rcases List.mem_append.mp hq with hq' | hq'
      · have := h2 q hq'
        omega
      · have : q = (d.lookup.length, v) := by simpa using hq'
        rw [this]
        omega

theorem ffind_none {c : Char} :
    ∀ {l : List Char}, ffind c l = none ↔ c ∉ l := by
  intro l
  induction l with
  | nil => simp [ffind]
  | cons a t ih =>
    by_cases hac : a = c
    · simp [ffind, hac]
    · simp only [ffind, if_neg hac, Option.map_eq_none', List.mem_cons, ih]
      constructor
      · intro h h'
        rcases h' with h' | h'
        · exact hac h'.symm
        · exact h h'
      · intro h h'
        exact h (Or.inr h')

theorem ffind_some {c : Char} :
    ∀ {l : List Char} {i : Nat}, ffind c l = some i →
      c ∉ l.take i ∧ (l.drop i).head? = some c := by
  intro l
  induction l with
  | nil => intro i h; simp [ffind] at h
  | cons a t ih =>
    intro i h
    by_cases hac : a = c
    · rw [ffind, if_pos hac] at h
      obtain rfl : i = 0 := by simpa using h.symm
      simp [hac]
    · rw [ffind, if_neg hac] at h
      obtain ⟨j, hj, rfl⟩ := Option.map_eq_some'.mp h
      obtain ⟨ht, hh⟩ := ih hj
      refine ⟨?_, ?_⟩
      · simp only [List.take_succ_cons, List.mem_cons]
        intro h'
        rcases h' with h' | h'
        · exact hac h'.symm
        · exact ht h'
      · simpa using hh

theorem rfindIdx_none {c : Char} :
    ∀ {l : List Char}, rfindIdx c l = none ↔ c ∉ l := by
  intro l
  induction l with
  | nil => simp [rfindIdx]
  | cons a t ih =>
    cases hx : rfindIdx c t with
    | some j =>
      have hct : c ∈ t := by
        by_contra hc
        rw [ih.mpr hc] at hx
        cases hx
      simp [rfindIdx, hx, hct]
    | none =>
      have hct : c ∉ t := ih.mp hx
      by_cases hac : a = c
      · simp [rfindIdx, hx, hac]
      · simp only [rfindIdx, hx, if_neg hac, List.mem_cons]
        constructor
        · intro _ h'
          rcases h' with h' | h'
          · exact hac h'.symm
          · exact hct h'
        · intro _
          trivial

theorem rfindIdx_some {c : Char} :
    ∀ {l : List Char} {i : Nat}, rfindIdx c l = some i →
      (l.drop i).head? = some c ∧ c ∉ l.drop (i + 1) := by
  intro l
  induction l with
  | nil => intro i h; simp [rfindIdx] at h
  | cons a t ih =>
    intro i h
    cases hx : rfindIdx c t with
    | some j =>
      rw [rfindIdx, hx] at h
      obtain rfl : i = j + 1 := by simpa using h.symm
      obtain ⟨hh, hn⟩ := ih hx
      exact ⟨by simpa using hh, by simpa using hn⟩
    | none =>
      rw [rfindIdx, hx] at h
      by_cases hac : a = c
      · rw [if_pos hac] at h
        obtain rfl : i = 0 := by simpa using h.symm
        refine ⟨by simpa using hac, ?_⟩
        simpa using rfindIdx_none.mp hx
      · rw [if_neg hac] at h
        exact absurd h (by simp)

theorem byteLen_pfx_le {p k : List Char} (h : p.isPrefixOf k = true) :
    byteLen p ≤ byteLen k := by
  obtain ⟨t, rfl⟩ := List.isPrefixOf_iff_prefix.mp h
  simp [byteLen, List.map_append, List.sum_append]

theorem hybridBuildResult_length {idx : HybridAmpIndex} {sug fkw : Nat}
    (h : sug < idx.suggestions.length) :
    (hybridBuildResult idx sug fkw).length = 1 := by
  simp only [hybridBuildResult, List.getElem?_eq_getElem h, List.length_cons,
    List.length_nil]

theorem hybridBuildResult_length_le (idx : HybridAmpIndex) (sug fkw : Nat) :
    (hybridBuildResult idx sug fkw).length ≤ 1 := by
  rw [hybridBuildResult]
  cases idx.suggestions[sug]? <;> simp

theorem blartBuildResult_length_le (idx : BlartAmpIndex) (md : KeywordMetadata) :
    (blartBuildResult idx md).length ≤ 1 := by
  rw [blartBuildResult]
  cases idx.suggestions[md.suggestionIdx]? <;> simp

theorem lexLe_eq_not_lexLt : ∀ (s t : List Char), lexLe s t = !(lexLt t s) := by
  intro s
  induction s with
  | nil => intro t; cases t <;> rfl
  | cons a s ih =>
    intro t
    cases t with
    | nil => rfl
    | cons b t =>
      by_cases hab : a.toNat < b.toNat
      · have hba : ¬ b.toNat < a.toNat := by omega
        simp [lexLe, lexLt, hab, hba]
      · by_cases hba : b.toNat < a.toNat
        · simp [lexLe, lexLt, hab, hba]
        · simp [lexLe, lexLt, hab, hba, ih t]

/-- In a sorted tree, a stored admissible key is found by the blart range
scan: the filtered range starts at the key itself, which begins with itself
and passes the min-prefix test. -/
theorem blartSelect_self {tree : List (List Char × KeywordMetadata)}
    {k : List Char} {md : KeywordMetadata}
    (hsort : tree.Pairwise (fun a b => lexLt a.1 b.1 = true))
    (hmem : (k, md) ∈ tree) (hadm : md.minPrefixLen ≤ k.length) :
    blartSelect tree k = some (k, md) := by
  induction tree with
  | nil => cases hmem
  | cons hd rest ih =>
    rw [List.pairwise_cons] at hsort
    obtain ⟨hf, ht⟩ := hsort
    rcases List.mem_cons.mp hmem with heq | hmem'
    · have hpk : lexLe k hd.1 = true := by
        rw [← heq]
        exact lexLe_refl k
      have hfil : ((hd :: rest).filter (fun e => lexLe k e.1)) =
          hd :: rest.filter (fun e => lexLe k e.1) := by
        simp [List.filter_cons, hpk]
      rw [blartSelect, hfil, ← heq]
      rw [rangeScanFirst, if_neg (by simp [isPrefixOf_rfl]), if_pos hadm]
    · have hlt : lexLt hd.1 k = true := hf (k, md) hmem'
      have hexc : lexLe k hd.1 = false := by
        rw [lexLe_eq_not_lexLt, hlt]
        rfl
      have hfil : ((hd :: rest).filter (fun e => lexLe k e.1)) =
          rest.filter (fun e => lexLe k e.1) := by
        simp [List.filter_cons, hexc]
      rw [blartSelect, hfil]
      exact ih ht hmem'

theorem blartBuildResult_length {idx : BlartAmpIndex} {md : KeywordMetadata}
    (h : md.suggestionIdx < idx.suggestions.length) :
    (blartBuildResult idx md).length = 1 := by
  simp only [blartBuildResult, List.getElem?_eq_getElem h, List.length_cons,
    List.length_nil]

theorem getD_take {α : Type} (x : α) :
    ∀ (l : List α) (d j : Nat), j < d → (l.take d).getD j x = l.getD j x := by
  intro l
  induction l with
  | nil => intro d j _; simp
  | cons a t ih =>
    intro d j hj
    cases d with
    | zero => omega
    | succ d' =>
      cases j with
      | zero => simp [List.take_succ_cons, List.getD_cons_zero]
      | succ j' =>
        simp only [List.take_succ_cons, List.getD_cons_succ]
        exact ih d' j' (by omega)

/-- Full description of one run extension of `collapse_keywords`: the inner
loop consumes the first `d` elements of `l` (the run's continuation), each
being a one-character extension of `curr` of the stated length; the loop's
best element is the last consumed one (or `best` when none is), and the
remainder is what the outer loop continues on. -/
theorem collapseGo_run (curr : List Char) (currLen : Nat) :
    ∀ (l : List (List Char)) (n : Nat) (best : List Char),
      ∃ d, d ≤ l.length ∧
        (collapseGo curr currLen n best l).2.1 = n + d ∧
        (collapseGo curr currLen n best l).2.2 = l.drop d ∧
        (collapseGo curr currLen n best l).1 = (l.take d).getLastD best ∧
        ∀ j, j < d → (l.getD j []).length = currLen + n + j + 1 ∧
          curr.isPrefixOf (l.getD j []) = true := by
  intro l
  induction l with
  | nil =>
    intro n best
    refine ⟨0, by simp, ?_, ?_, ?_, ?_⟩
    · simp [collapseGo]
    · simp [collapseGo]
    · simp [collapseGo, List.getLastD]
    · intro j hj; omega
  | cons nxt rest ih =>
    intro n best
    by_cases h : curr.isPrefixOf nxt ∧ nxt.length = currLen + n + 1
    · obtain ⟨d', hdle, h1, h2, h3, hchain⟩ := ih (n + 1) nxt
      refine ⟨d' + 1, ?_, ?_, ?_, ?_, ?_⟩
      · simp only [List.length_cons]; omega
      · simp only [collapseGo, if_pos h]; omega
      · simp only [collapseGo, if_pos h, List.drop_succ_cons]; exact h2
      · simp only [collapseGo, if_pos h, List.take_succ_cons, List.getLastD_cons]
        exact h3
      · intro j hj
        cases j with
        | zero =>
          simp only [List.getD_cons_zero]
          have hlen := h.2
          exact ⟨by omega, h.1⟩
        | succ j' =>
          simp only [List.getD_cons_succ]
          have hc := hchain j' (by omega)
          have hc1 := hc.1
          exact ⟨by omega, hc.2⟩
    · refine ⟨0, by simp, ?_, ?_, ?_, ?_⟩
      · simp only [collapseGo, if_neg h]
        omega
      · simp only [collapseGo, if_neg h, List.drop_zero]
      · simp only [collapseGo, if_neg h, List.take_zero, List.getLastD]
      · intro j hj; omega

/-- Run decomposition of `collapse_keywords`: the input partitions into
consecutive non-empty runs (`blocks`), each emitted entry is
`(last of run, char_count (first of run))` for its run, and within a run
the `j`-th element is a one-character-per-step extension of the run's first
element. -/
theorem collapseKeywordsFuel_blocks :
    ∀ (fuel : Nat) (l : List (List Char)), l.length ≤ fuel →
      ∃ blocks : List (List (List Char)),
        blocks.flatten = l ∧ (∀ b ∈ blocks, b ≠ []) ∧
        collapseKeywordsFuel fuel l =
          blocks.map (fun b => (b.getLastD [], (b.headD []).length)) ∧
        ∀ b ∈ blocks, ∀ j, j < b.length →
          (b.getD j []).length = (b.headD []).length + j ∧
          (b.headD []).isPrefixOf (b.getD j []) = true := by
  intro fuel
  induction fuel with
  | zero =>
    intro l hl
    have hnil : l = [] := List.length_eq_zero.mp (by omega)
    subst hnil
    exact ⟨[], rfl, by simp, rfl, by simp⟩
  | succ fuel ih =>
    intro l hl
    cases l with
    | nil => exact ⟨[], rfl, by simp, rfl, by simp⟩
    | cons curr rest =>
      obtain ⟨d, hdle, h1, h2, h3, hchain⟩ :=
        collapseGo_run curr curr.length rest 0 curr
      obtain ⟨blocks', hj', hne', hmap', hch'⟩ := ih (rest.drop d)
        (by simp only [List.length_drop, List.length_cons] at hl ⊢; omega)
      refine ⟨(curr :: rest.take d) :: blocks', ?_, ?_, ?_, ?_⟩
      · simp only [List.flatten_cons]
        rw [hj']
        simp [List.cons_append, List.take_append_drop]
      · intro b hb
        rcases List.mem_cons.mp hb with rfl | hb'
        · simp
        · exact hne' b hb'
      · simp only [collapseKeywordsFuel, List.map_cons]
        congr 1
        · simp only [List.getLastD_cons, List.headD_cons]
          exact Prod.ext h3 rfl
        · rw [h2, hmap']
      · intro b hb j hjb
        rcases List.mem_cons.mp hb with rfl | hb'
        · cases j with
          | zero => simp [List.getD_cons_zero, List.headD_cons, isPrefixOf_rfl]
          | succ j' =>
            have hblen : (curr :: rest.take d).length = d + 1 := by
              simp [List.length_take, Nat.min_eq_left hdle]
            have hjlt : j' < d := by omega
            have hget : (curr :: rest.take d).getD (j' + 1) [] =
                rest.getD j' [] := by
              simp only [List.getD_cons_succ]
              exact getD_take [] rest d j' hjlt
            have hc := hchain j' hjlt
            have hc1 := hc.1
            rw [hget]
            simp only [List.headD_cons]
            exact ⟨by omega, hc.2⟩
        · exact hch' b hb' j hjb

/-- Analogue of `collapseGo_run` for the extended collapser over
`(keyword, full_keyword)` pairs. -/
theorem collapseGoEx_run (curr : List Char) (currLen : Nat) :
    ∀ (l : List (List Char × List Char)) (n : Nat)
      (best : List Char × List Char),
      ∃ d, d ≤ l.length ∧
        (collapseGoEx curr currLen n best l).2.1 = n + d ∧
        (collapseGoEx curr currLen n best l).2.2 = l.drop d ∧
        (collapseGoEx curr currLen n best l).1 = (l.take d).getLastD best ∧
        ∀ j, j < d → ((l.getD j ([], [])).1).length = currLen + n + j + 1 ∧
          curr.isPrefixOf (l.getD j ([], [])).1 = true := by
  intro l
  induction l with
  | nil =>
    intro n best
    refine ⟨0, by simp, ?_, ?_, ?_, ?_⟩
    · simp [collapseGoEx]
    · simp [collapseGoEx]
    · simp [collapseGoEx, List.getLastD]
    · intro j hj; omega
  | cons hd rest ih =>
    intro n best
    obtain ⟨nxt, fk⟩ := hd
    by_cases h : curr.isPrefixOf nxt ∧ nxt.length = currLen + n + 1
    · obtain ⟨d', hdle, h1, h2, h3, hchain⟩ := ih (n + 1) (nxt, fk)
      refine ⟨d' + 1, ?_, ?_, ?_, ?_, ?_⟩
      · simp only [List.length_cons]; omega
      · simp only [collapseGoEx, if_pos h]; omega
      · simp only [collapseGoEx, if_pos h, List.drop_succ_cons]; exact h2
      · simp only [collapseGoEx, if_pos h, List.take_succ_cons,
          List.getLastD_cons]
        exact h3
      · intro j hj
        cases j with
        | zero =>
          simp only [List.getD_cons_zero]
          have hlen := h.2
          exact ⟨by omega, h.1⟩
        | succ j' =>
          simp only [List.getD_cons_succ]
          have hc := hchain j' (by omega)
          have hc1 := hc.1
          exact ⟨by omega, hc.2⟩
    · refine ⟨0, by simp, ?_, ?_, ?_, ?_⟩
      · simp only [collapseGoEx, if_neg h]
        omega
      · simp only [collapseGoEx, if_neg h, List.drop_zero]
      · simp only [collapseGoEx, if_neg h, List.take_zero, List.getLastD]
      · intro j hj; omega

/-- Run decomposition of `collapse_keywords_ex` over the zipped
`(keyword, full_keyword)` list: each emitted triple is
`(last of run, char_count (first of run), FullKeyword::new(last of run,
full keyword of last of run))` for its run. -/
theorem collapseKeywordsExFuel_blocks :
    ∀ (fuel : Nat) (l : List (List Char × List Char)), l.length ≤ fuel →
      ∃ blocks : List (List (List Char × List Char)),
        blocks.flatten = l ∧ (∀ b ∈ blocks, b ≠ []) ∧
        collapseKeywordsExFuel fuel l =
          blocks.map (fun b => ((b.getLastD ([], [])).1,
            ((b.headD ([], [])).1).length,
            FullKeyword.new (b.getLastD ([], [])).1 (b.getLastD ([], [])).2)) ∧
        ∀ b ∈ blocks, ∀ j, j < b.length →
          ((b.getD j ([], [])).1).length = ((b.headD ([], [])).1).length + j ∧
          ((b.headD ([], [])).1).isPrefixOf (b.getD j ([], [])).1 = true := by
  intro fuel
  induction fuel with
  | zero =>
    intro l hl
    have hnil : l = [] := List.length_eq_zero.mp (by omega)
    subst hnil
    exact ⟨[], rfl, by simp, rfl, by simp⟩
  | succ fuel ih =>
    intro l hl
    cases l with
    | nil => exact ⟨[], rfl, by simp, rfl, by simp⟩
    | cons hd rest =>
      obtain ⟨curr, currFk⟩ := hd
      obtain ⟨d, hdle, h1, h2, h3, hchain⟩ :=
        collapseGoEx_run curr curr.length rest 0 (curr, currFk)
      obtain ⟨blocks', hj', hne', hmap', hch'⟩ := ih (rest.drop d)
        (by simp only [List.length_drop, List.length_cons] at hl ⊢; omega)
      refine ⟨((curr, currFk) :: rest.take d) :: blocks', ?_, ?_, ?_, ?_⟩
      · simp only [List.flatten_cons]
        rw [hj']
        simp [List.cons_append, List.take_append_drop]
      · intro b hb
        rcases List.mem_cons.mp hb with rfl | hb'
        · simp
        · exact hne' b hb'
      · simp only [collapseKeywordsExFuel, List.map_cons]
        congr 1
        · simp only [List.getLastD_cons, List.headD_cons]
          rw [← h3]
        · rw [h2, hmap']
      · intro b hb j hjb
        rcases List.mem_cons.mp hb with rfl | hb'
        · cases j with
          | zero => simp [List.getD_cons_zero, List.headD_cons, isPrefixOf_rfl]
          | succ j' =>
            have hblen : ((curr, currFk) :: rest.take d).length = d + 1 := by
              simp [List.length_take, Nat.min_eq_left hdle]
            have hjlt : j' < d := by omega
            have hget : ((curr, currFk) :: rest.take d).getD (j' + 1) ([], [])
                = rest.getD j' ([], []) := by
              simp only [List.getD_cons_succ]
              exact getD_take ([], []) rest d j' hjlt
            have hc := hchain j' hjlt
            have hc1 := hc.1
            rw [hget]
            simp only [List.headD_cons]
            exact ⟨by omega, hc.2⟩
        · exact hch' b hb' j hjb

/-! ## Claim theorems -/

/-- C6: on every input keyword list the collapser emits at most as many
entries as the input has keywords; the input partitions into consecutive
non-empty runs, in bijection with the emitted entries: each entry is
`(last keyword of its run, char_count (FIRST keyword of its run))`, and
within a run the `j`-th keyword is a `j`-character extension of the run's
first keyword (so `m ≤ char_count(k)`, with equality exactly for singleton
runs); the empty list emits nothing and `[x]` emits exactly
`(x, char_count(x))`.  Both `collapse_keywords` and `collapse_keywords_ex`
satisfy the contract (the latter over the zipped keyword/full-keyword
list). -/
theorem c6_collapser_contract :
    (∀ keywords : List (List Char),
      (collapseKeywords keywords).length ≤ keywords.length) ∧
    (∀ keywords : List (List Char),
      ∃ blocks : List (List (List Char)),
        blocks.flatten = keywords ∧ (∀ b ∈ blocks, b ≠ []) ∧
        collapseKeywords keywords =
          blocks.map (fun b => (b.getLastD [], (b.headD []).length)) ∧
        ∀ b ∈ blocks, ∀ j, j < b.length →
          (b.getD j []).length = (b.headD []).length + j ∧
          (b.headD []).isPrefixOf (b.getD j []) = true) ∧
    (∀ (keywords : List (List Char)) (k : List Char) (m : Nat),
      (k, m) ∈ collapseKeywords keywords →
      ∃ w, w ∈ keywords ∧ m = w.length ∧ w.isPrefixOf k = true ∧
        k ∈ keywords ∧ m ≤ k.length) ∧
    collapseKeywords [] = [] ∧
    (∀ x : List Char, collapseKeywords [x] = [(x, x.length)]) ∧
    (∀ (keywords : List (List Char)) (fks : List (List Char × Nat)),
      (collapseKeywordsEx keywords fks).length ≤ keywords.length) ∧
    (∀ (keywords : List (List Char)) (fks : List (List Char × Nat)),
      ∃ blocks : List (List (List Char × List Char)),
        blocks.flatten = keywords.zip (expandRLE fks) ∧
        (∀ b ∈ blocks, b ≠ []) ∧
        collapseKeywordsEx keywords fks =
          blocks.map (fun b => ((b.getLastD ([], [])).1,
            ((b.headD ([], [])).1).length,
            FullKeyword.new (b.getLastD ([], [])).1 (b.getLastD ([], [])).2)) ∧
        ∀ b ∈ blocks, ∀ j, j < b.length →
          ((b.getD j ([], [])).1).length = ((b.headD ([], [])).1).length + j ∧
          ((b.headD ([], [])).1).isPrefixOf (b.getD j ([], [])).1 = true) ∧
    (∀ (keywords : List (List Char)) (fks : List (List Char × Nat))
      (k : List Char) (m : Nat) (fk : FullKeyword),
      (k, m, fk) ∈ collapseKeywordsEx keywords fks →
      ∃ w, w ∈ keywords ∧ m = w.length ∧ w.isPrefixOf k = true ∧
        k ∈ keywords ∧ m ≤ k.length) := by
  refine ⟨?_, ?_, ?_, rfl, ?_, ?_, ?_, ?_⟩
  · intro keywords
    exact collapseKeywordsFuel_length keywords.length keywords
  · intro keywords
    exact collapseKeywordsFuel_blocks keywords.length keywords (Nat.le_refl _)
  · intro keywords k m h
    exact collapseKeywords_mem h
  · intro x
    exact collapseKeywords_singleton x
  · intro keywords fks
    exact collapseKeywordsEx_length keywords fks
  · intro keywords fks
    exact collapseKeywordsExFuel_blocks
      (keywords.zip (expandRLE fks)).length (keywords.zip (expandRLE fks))
      (Nat.le_refl _)
  · intro keywords fks k m fk h
    exact collapseKeywordsEx_mem keywords fks k m fk h

/-- Witness for C6 at the spec's run `["fo", "foo", "foob"]`: the emitted
entry is `("foob", 2)`, and the run decomposition exists whose single block
starts at `"fo"` (scalar count 2, the emitted min-prefix). -/
theorem c6_collapser_contract_witness :
    (collapseKeywords ["fo".toList, "foo".toList, "foob".toList]).length ≤ 3 ∧
    (∃ blocks : List (List (List Char)),
      blocks.flatten = ["fo".toList, "foo".toList, "foob".toList] ∧
      (∀ b ∈ blocks, b ≠ []) ∧
      collapseKeywords ["fo".toList, "foo".toList, "foob".toList] =
        blocks.map (fun b => (b.getLastD [], (b.headD []).length)) ∧
      ∀ b ∈ blocks, ∀ j, j < b.length →
        (b.getD j []).length = (b.headD []).length + j ∧
        (b.headD []).isPrefixOf (b.getD j []) = true) ∧
    (∃ w, w ∈ ["fo".toList, "foo".toList, "foob".toList] ∧ 2 = w.length ∧
      w.isPrefixOf "foob".toList = true ∧
      "foob".toList ∈ ["fo".toList, "foo".toList, "foob".toList] ∧
      2 ≤ ("foob".toList).length) :=
  ⟨c6_collapser_contract.1 ["fo".toList, "foo".toList, "foob".toList],
    c6_collapser_contract.2.1 ["fo".toList, "foo".toList, "foob".toList],
    c6_collapser_contract.2.2.1 ["fo".toList, "foo".toList, "foob".toList]
      "foob".toList 2 (by decide)⟩

/-- C7 (code bug): after `add("a", 3); add("b", 2)` the claim's reading
(least `i` with `ends[i] ≥ k`, `RunEndEncoding.getSpec`) gives
`get(3) = "b"` and `get(0) = "a"`, but `RunEndEncoding::get` as written
returns `values[insertion_idx - 1]` (and `None` at insertion point 0),
i.e. `get(3) = "a"` and `get(0) = None`: `get` treats the run ends built
by `add` as run starts. -/
theorem c7_runend_get_bug :
    c7Encoding.indices = [2, 4] ∧
    c7Encoding.get 3 = some "a".toList ∧
    c7Encoding.getSpec 3 = some "b".toList ∧
    c7Encoding.get 0 = none ∧
    c7Encoding.getSpec 0 = some "a".toList := by decide

/-- C10 (code bug): `add(v, 0)` on an empty encoding computes `0 - 1` in
`usize` — an underflow (panic in debug builds; wrap-around to `2^64 - 1` in
release builds, as modelled).  A subsequent `add("y", 1)` then produces the
indices `[2^64 - 1, 0]`, which are not sorted, breaking the precondition of
the binary search in `get`. -/
theorem c10_add_underflow :
    c10Encoding.indices = [2 ^ 64 - 1] ∧
    (c10Encoding.add "y".toList 1).indices = [2 ^ 64 - 1, 0] ∧
    ¬ List.Sorted (· ≤ ·) (c10Encoding.add "y".toList 1).indices := by
  refine ⟨by decide, by decide, ?_⟩
  intro h
  rw [show (c10Encoding.add "y".toList 1).indices = [2 ^ 64 - 1, 0] by decide]
    at h
  have := (List.pairwise_cons.mp h).1 0 (List.mem_cons_self _ _)
  omega

/-- C8: `extract_template` splits a URL at the first `'?'` when present,
else at the last `'/'` when present, else at position 0; and the result
reconstructor's concatenation of the interned template with the returned
suffix restores the original URL exactly. -/
theorem c8_extract_template_roundtrip (url : List Char) (d : Dict)
    (hwf : DictWF d) :
    url.take (splitIdx url) ++ url.drop (splitIdx url) = url ∧
    ('?' ∈ url → '?' ∉ url.take (splitIdx url) ∧
      (url.drop (splitIdx url)).head? = some '?') ∧
    ('?' ∉ url → '/' ∈ url → (url.drop (splitIdx url)).head? = some '/' ∧
      '/' ∉ url.drop (splitIdx url + 1)) ∧
    ('?' ∉ url → '/' ∉ url → splitIdx url = 0) ∧
    DictWF (extractTemplate url d).2 ∧
    reconstructUrl (extractTemplate url d).1.1 (extractTemplate url d).1.2
      (extractTemplate url d).2.dict = url := by
  refine ⟨List.take_append_drop _ _, ?_, ?_, ?_, ?_, ?_⟩
  · intro hq
    cases hx : ffind '?' url with
    | none => exact absurd hq (ffind_none.mp hx)
    | some i =>
      have hsp : splitIdx url = i := by simp [splitIdx, hx]
      rw [hsp]
      exact ffind_some hx
  · intro hq hs
    have hfq : ffind '?' url = none := ffind_none.mpr hq
    cases hx : rfindIdx '/' url with
    | none => exact absurd hs (rfindIdx_none.mp hx)
    | some i =>
      have hsp : splitIdx url = i := by simp [splitIdx, hfq, hx]
      rw [hsp]
      exact rfindIdx_some hx
  · intro hq hs
    simp [splitIdx, ffind_none.mpr hq, rfindIdx_none.mpr hs]
  · exact (intern_wf hwf).1
  · have h2 := (intern_wf (d := d) (v := url.take (splitIdx url)) hwf).2
    show reconstructUrl (d.intern (url.take (splitIdx url))).1
      (url.drop (splitIdx url)) (d.intern (url.take (splitIdx url))).2.dict = url
    simp only [reconstructUrl, h2]
    exact List.take_append_drop _ _

/-- Witness for C8 at the URL `"https://a.example/p?q=1"` and the empty
dictionary: the reconstructed URL equals the input. -/
theorem c8_extract_template_roundtrip_witness :
    reconstructUrl
      (extractTemplate "https://a.example/p?q=1".toList Dict.empty).1.1
      (extractTemplate "https://a.example/p?q=1".toList Dict.empty).1.2
      (extractTemplate "https://a.example/p?q=1".toList Dict.empty).2.dict =
      "https://a.example/p?q=1".toList :=
  (c8_extract_template_roundtrip "https://a.example/p?q=1".toList Dict.empty
    (by refine ⟨?_, ?_⟩ <;> intro x hx <;> cases hx)).2.2.2.2.2

/-- C9: `query` is infallible on both variants: it always returns `Ok`
with zero or one results; a miss is the empty sequence, not an error.  (For
the blart variant the suggestion indices stored in the tree are assumed in
bounds — true of every built index — since the source would otherwise
panic rather than error.) -/
theorem c9_query_infallible :
    (∀ (idx : HybridAmpIndex) (q : List Char),
      ∃ rs, hybridQuery idx q = Except.ok rs ∧ rs.length ≤ 1) ∧
    (∀ (idx : BlartAmpIndex) (q : List Char),
      (∀ e ∈ idx.keywordTree, e.2.suggestionIdx < idx.suggestions.length) →
      ∃ rs, blartQuery idx q = Except.ok rs ∧ rs.length ≤ 1) := by
  constructor
  · intro idx q
    cases hx : hybridSelect idx q with
    | none =>
      refine ⟨[], ?_, by simp⟩
      simp only [hybridQuery, hx]
    | some v =>
      refine ⟨hybridBuildResult idx v.suggestionIdx v.fullKwIdx, ?_, ?_⟩
      · simp only [hybridQuery, hx]
      · exact hybridBuildResult_length_le idx v.suggestionIdx v.fullKwIdx
  · intro idx q _
    cases hx : blartSelect idx.keywordTree q with
    | none =>
      refine ⟨[], ?_, by simp⟩
      simp only [blartQuery, hx]
    | some r =>
      refine ⟨blartBuildResult idx r.2, ?_, ?_⟩
      · simp only [blartQuery, hx]
      · exact blartBuildResult_length_le idx r.2

/-- Witness for C9: on a concrete one-entry blart index (whose stored
suggestion index is in bounds) every query returns `Ok` with at most one
result. -/
theorem c9_query_infallible_witness :
    ∃ rs, blartQuery c9DemoBlart "a".toList = Except.ok rs ∧ rs.length ≤ 1 :=
  c9_query_infallible.2 c9DemoBlart "a".toList (by decide)

theorem hybridSelect_none_of_inadmissible {idx : HybridAmpIndex}
    {q : List Char}
    (h : ∀ e, (e ∈ idx.shortCache ∨ e ∈ idx.mainTrie) →
      q.isPrefixOf e.1 = true → q.length < e.2.minPrefixLen) :
    hybridSelect idx q = none := by
  have hscan1 : shortestAdmissible IndexValue.minPrefixLen q q.length
      idx.shortCache = none := by
    rw [shortestAdmissible_none_iff]
    intro e he hadm
    have := h e (Or.inl he) hadm.1
    omega
  have hscan2 : shortestAdmissible IndexValue.minPrefixLen q q.length
      (sortByKey idx.mainTrie) = none := by
    rw [shortestAdmissible_none_iff]
    intro e he hadm
    have := h e (Or.inr (mem_sortByKey.mp he)) hadm.1
    omega
  have hcache : shortCacheLookup idx.shortCache q q.length = none := by
    cases hl : List.lookup q idx.shortCache with
    | none => simp only [shortCacheLookup, hl, hscan1]
    | some v =>
      have hv := h (q, v) (Or.inl (lookup_mem hl)) (isPrefixOf_rfl q)
      have hnot : ¬ v.minPrefixLen ≤ q.length := by
        simp only at hv
        omega
      simp only [shortCacheLookup, hl, if_neg hnot, hscan1]
  cases hl : List.lookup q idx.mainTrie with
  | none =>
    by_cases h3 : q.length ≤ 3
    · simp only [hybridSelect, if_pos h3, hcache, hl, hscan2]
    · simp only [hybridSelect, if_neg h3, hl, hscan2]
  | some v =>
    have hv := h (q, v) (Or.inr (lookup_mem hl)) (isPrefixOf_rfl q)
    have hnot : ¬ v.minPrefixLen ≤ q.length := by
      simp only at hv
      omega
    by_cases h3 : q.length ≤ 3
    · simp only [hybridSelect, if_pos h3, hcache, hl, if_neg hnot, hscan2]
    · simp only [hybridSelect, if_neg h3, hl, if_neg hnot, hscan2]

/-- C5: when the query's scalar count is below the min-prefix of every
indexed key beginning with it, the query returns empty — on both variants.
In particular an index built (by the hybrid builder) from records whose
keywords are all non-empty returns empty for the empty query, because the
collapser never emits `min_prefix_len = 0` for non-empty keywords (last
conjunct). -/
theorem c5_below_min_prefix_empty :
    (∀ (idx : BlartAmpIndex) (q : List Char),
      (∀ e ∈ idx.keywordTree, q.isPrefixOf e.1 = true →
        q.length < e.2.minPrefixLen) →
      blartQuery idx q = Except.ok []) ∧
    (∀ (idx : HybridAmpIndex) (q : List Char),
      (∀ e, (e ∈ idx.shortCache ∨ e ∈ idx.mainTrie) →
        q.isPrefixOf e.1 = true → q.length < e.2.minPrefixLen) →
      hybridQuery idx q = Except.ok []) ∧
    (∀ amps : List OriginalAmp,
      (∀ amp ∈ amps, ∀ w ∈ amp.keywords, w ≠ []) →
      hybridQuery (hybridBuild amps) [] = Except.ok []) ∧
    (∀ (keywords : List (List Char)) (k : List Char) (m : Nat),
      (∀ w ∈ keywords, w ≠ []) → (k, m) ∈ collapseKeywords keywords →
      0 < m) := by
  have hblart : ∀ (idx : BlartAmpIndex) (q : List Char),
      (∀ e ∈ idx.keywordTree, q.isPrefixOf e.1 = true →
        q.length < e.2.minPrefixLen) →
      blartQuery idx q = Except.ok [] := by
    intro idx q h
    have hsel : blartSelect idx.keywordTree q = none := by
      apply rangeScanFirst_none
      intro e he hp
      have := h e (List.mem_of_mem_filter he) hp
      omega
    simp only [blartQuery, hsel]
  have hhybrid : ∀ (idx : HybridAmpIndex) (q : List Char),
      (∀ e, (e ∈ idx.shortCache ∨ e ∈ idx.mainTrie) →
        q.isPrefixOf e.1 = true → q.length < e.2.minPrefixLen) →
      hybridQuery idx q = Except.ok [] := by
    intro idx q h
    simp only [hybridQuery, hybridSelect_none_of_inadmissible h]
  refine ⟨hblart, hhybrid, ?_, ?_⟩
  · intro amps h
    apply hhybrid
    intro e he hp
    have hmp := hybridBuild_minpos amps h e he
    simpa using hmp
  · intro keywords k m hne hmem
    obtain ⟨w, hw, hml, _, _, _⟩ := collapseKeywords_mem hmem
    have : w ≠ [] := hne w hw
    cases hww : w with
    | nil => exact absurd hww this
    | cons c cs => rw [hml, hww]; simp

/-- Witness for C5: the empty query on the index built from `c5DemoAmp`
returns the empty result. -/
theorem c5_below_min_prefix_empty_witness :
    hybridQuery (hybridBuild [c5DemoAmp]) [] = Except.ok [] :=
  c5_below_min_prefix_empty.2.2.1 [c5DemoAmp] (by decide)

/-- C1 (amended, blart variant): when the blart query selects a key for
query `q` over a sorted tree (as `blart::TreeMap` iteration always is), the
selected key is an indexed key that begins with `q`, is admissible
(`min_prefix_len ≤ char_count(q)`), and is byte-lexicographically smallest
among all admissible indexed keys beginning with `q`. -/
theorem c1_blart_lex_smallest (tree : List (List Char × KeywordMetadata))
    (q k : List Char) (md : KeywordMetadata)
    (hsort : tree.Pairwise (fun a b => lexLt a.1 b.1 = true))
    (hsel : blartSelect tree q = some (k, md)) :
    (k, md) ∈ tree ∧ q.isPrefixOf k = true ∧ md.minPrefixLen ≤ q.length ∧
    ∀ e ∈ tree, q.isPrefixOf e.1 = true → e.2.minPrefixLen ≤ q.length →
      lexLe k e.1 = true := by
  have hsort' : (tree.filter (fun e => lexLe q e.1)).Pairwise
      (fun a b => lexLt a.1 b.1 = true) := hsort.filter _
  obtain ⟨hm, hp, ha⟩ := rangeScanFirst_weak_sound hsel
  refine ⟨List.mem_of_mem_filter hm, hp, ha, ?_⟩
  intro e he hep hea
  have hef : e ∈ tree.filter (fun e => lexLe q e.1) :=
    List.mem_filter.mpr ⟨he, pfx_lexLe hep⟩
  exact rangeScanFirst_min hsort' hsel e hef hep hea

/-- Witness for C1 on a concrete sorted tree: the query `"a"` selects
`"ab"`, the lexicographically smallest admissible key beginning with
`"a"`. -/
theorem c1_blart_lex_smallest_witness :
    ("ab".toList, (⟨0, 1, FullKeyword.Same, "ab".toList⟩ : KeywordMetadata))
      ∈ c1DemoTree ∧
    ("a".toList).isPrefixOf "ab".toList = true ∧
    (⟨0, 1, FullKeyword.Same, "ab".toList⟩ : KeywordMetadata).minPrefixLen ≤
      ("a".toList).length ∧
    ∀ e ∈ c1DemoTree, ("a".toList).isPrefixOf e.1 = true →
      e.2.minPrefixLen ≤ ("a".toList).length →
      lexLe "ab".toList e.1 = true :=
  c1_blart_lex_smallest c1DemoTree "a".toList "ab".toList
    ⟨0, 1, FullKeyword.Same, "ab".toList⟩ (by decide) (by decide)

/-- Counterexample for C1 on the hybrid variant: for the query `"abcd"`
both trie keys `"abcd ez"` (suggestion 0) and `"abcdz"` (suggestion 1) are
admissible, and `"abcd ez"` is byte-lexicographically smaller (space `0x20`
sorts before `'z'`), so the claim requires suggestion 0 (block id 3) to be
returned; the hybrid prefix scan instead keeps the key with the smaller
byte length and returns suggestion 1 (block id 4). -/
theorem c1_hybrid_not_lex_smallest :
    List.lookup "abcd ez".toList c1CexIdx.mainTrie =
      some ⟨0, 0, 4⟩ ∧
    List.lookup "abcdz".toList c1CexIdx.mainTrie =
      some ⟨1, 1, 4⟩ ∧
    lexLt "abcd ez".toList "abcdz".toList = true ∧
    ("abcd".toList).isPrefixOf "abcd ez".toList = true ∧
    hybridSelect c1CexIdx "abcd".toList = some ⟨1, 1, 4⟩ ∧
    queryBlockIds (hybridQuery c1CexIdx "abcd".toList) = [4] := by decide

theorem shortCacheLookup_isSome_iff (cache : List (List Char × IndexValue))
    (q : List Char) :
    (shortCacheLookup cache q q.length).isSome = true ↔
      ∃ e ∈ cache, q.isPrefixOf e.1 = true ∧
        e.2.minPrefixLen ≤ q.length := by
  constructor
  · intro h
    cases hv : shortCacheLookup cache q q.length with
    | none => rw [hv] at h; cases h
    | some v =>
      cases hl : List.lookup q cache with
      | some v0 =>
        by_cases hadm : v0.minPrefixLen ≤ q.length
        · exact ⟨(q, v0), lookup_mem hl, isPrefixOf_rfl q, hadm⟩
        · have hv' : shortestAdmissible IndexValue.minPrefixLen q q.length
              cache = some v := by
            rw [← hv]
            simp only [shortCacheLookup, hl, if_neg hadm]
          obtain ⟨k, hk, h1, h2, _⟩ := shortestAdmissible_some hv'
          exact ⟨(k, v), hk, h1, h2⟩
      | none =>
        have hv' : shortestAdmissible IndexValue.minPrefixLen q q.length
            cache = some v := by
          rw [← hv]
          simp only [shortCacheLookup, hl]
        obtain ⟨k, hk, h1, h2, _⟩ := shortestAdmissible_some hv'
        exact ⟨(k, v), hk, h1, h2⟩
  · intro ⟨e, he, hp, ha⟩
    cases hl : List.lookup q cache with
    | some v0 =>
      by_cases hadm : v0.minPrefixLen ≤ q.length
      · simp only [shortCacheLookup, hl, if_pos hadm, Option.isSome_some]
      · cases hs : shortestAdmissible IndexValue.minPrefixLen q q.length cache with
        | none =>
          exfalso
          exact (shortestAdmissible_none_iff _ _ _ _).mp hs e he ⟨hp, ha⟩
        | some v =>
          simp only [shortCacheLookup, hl, if_neg hadm, hs, Option.isSome_some]
    | none =>
      cases hs : shortestAdmissible IndexValue.minPrefixLen q q.length cache with
      | none =>
        exfalso
        exact (shortestAdmissible_none_iff _ _ _ _).mp hs e he ⟨hp, ha⟩
      | some v =>
        simp only [shortCacheLookup, hl, hs, Option.isSome_some]

theorem specFullSearch_isSome_iff (cache : List (List Char × IndexValue))
    (q : List Char) :
    (specFullSearch cache q).isSome = true ↔
      ∃ e ∈ cache, q.isPrefixOf e.1 = true ∧
        e.2.minPrefixLen ≤ q.length := by
  constructor
  · intro h
    cases hv : specFullSearch cache q with
    | none => rw [hv] at h; cases h
    | some r =>
      obtain ⟨k, md⟩ := r
      obtain ⟨hm, hp, ha⟩ := rangeScanFirst_weak_sound hv
      exact ⟨(k, md), mem_sortByKey.mp (List.mem_of_mem_filter hm), hp, ha⟩
  · intro ⟨e, he, hp, ha⟩
    have hsorted : ((sortByKey cache).filter (fun e => lexLe q e.1)).Pairwise
        (fun a b => lexLe a.1 b.1 = true) :=
      (sortByKey_pairwise cache).filter _
    have hge : ∀ x ∈ (sortByKey cache).filter (fun e => lexLe q e.1),
        lexLe q x.1 = true := by
      intro x hx
      exact (List.mem_filter.mp hx).2
    have hmem : e ∈ (sortByKey cache).filter (fun e => lexLe q e.1) :=
      List.mem_filter.mpr ⟨mem_sortByKey.mpr he, pfx_lexLe hp⟩
    exact rangeScanFirst_complete hsorted hge hmem hp ha

/-- C4 (amended): for queries of at most 3 scalars the short-key fast path
returns a result exactly when the spec's §4.3 full search over the same
cache entries does; but the entry it returns is one whose key has minimal
UTF-8 byte length among the admissible cache keys beginning with `q`
(exact hits included), not necessarily the §4.3 lexicographically smallest
key — so the selected key (and hence the record) can differ from the full
search's. -/
theorem c4_cache_shortest_match (cache : List (List Char × IndexValue))
    (q : List Char) :
    ((shortCacheLookup cache q q.length).isSome =
      (specFullSearch cache q).isSome) ∧
    (∀ v, shortCacheLookup cache q q.length = some v →
      ∃ k, (k, v) ∈ cache ∧ q.isPrefixOf k = true ∧
        v.minPrefixLen ≤ q.length ∧
        ∀ e ∈ cache, q.isPrefixOf e.1 = true → e.2.minPrefixLen ≤ q.length →
          byteLen k ≤ byteLen e.1) := by
  constructor
  · cases hc : (shortCacheLookup cache q q.length).isSome with
    | true =>
      have := (specFullSearch_isSome_iff cache q).mpr
        ((shortCacheLookup_isSome_iff cache q).mp hc)
      exact this.symm
    | false =>
      cases hs : (specFullSearch cache q).isSome with
      | true =>
        have := (shortCacheLookup_isSome_iff cache q).mpr
          ((specFullSearch_isSome_iff cache q).mp hs)
        rw [hc] at this
        cases this
      | false => rfl
  · intro v hv
    cases hl : List.lookup q cache with
    | some v0 =>
      by_cases hadm : v0.minPrefixLen ≤ q.length
      · have hveq : v = v0 := by
          rw [shortCacheLookup, hl] at hv
          simp only [if_pos hadm] at hv
          exact (Option.some.inj hv).symm
        subst hveq
        refine ⟨q, lookup_mem hl, isPrefixOf_rfl q, hadm, ?_⟩
        intro e _ hep _
        exact byteLen_pfx_le hep
      · have hv' : shortestAdmissible IndexValue.minPrefixLen q q.length
            cache = some v := by
          rw [← hv]
          simp only [shortCacheLookup, hl, if_neg hadm]
        obtain ⟨k, hk, h1, h2, h3⟩ := shortestAdmissible_some hv'
        exact ⟨k, hk, h1, h2, fun e he hep hea => h3 e he hep hea⟩
    | none =>
      have hv' : shortestAdmissible IndexValue.minPrefixLen q q.length
          cache = some v := by
        rw [← hv]
        simp only [shortCacheLookup, hl]
      obtain ⟨k, hk, h1, h2, h3⟩ := shortestAdmissible_some hv'
      exact ⟨k, hk, h1, h2, fun e he hep hea => h3 e he hep hea⟩

/-- Counterexample for C4 as stated: on the cache `{"ab" ↦ suggestion 0,
"a b" ↦ suggestion 1}` (both with min-prefix 1) the fast path for query
`"a"` returns the byte-shortest key's value (suggestion 0, block id 5),
while the §4.3 full search over the same entries selects the
lexicographically smallest admissible key `"a b"` (suggestion 1) — the fast
path changes the selected key and the result, not only performance. -/
theorem c4_cache_vs_full_search_cex :
    shortCacheLookup c4CexIdx.shortCache "a".toList 1 = some ⟨0, 0, 1⟩ ∧
    specFullSearch c4CexIdx.shortCache "a".toList =
      some ("a b".toList, ⟨1, 1, 1⟩) ∧
    (⟨0, 0, 1⟩ : IndexValue) ≠ ⟨1, 1, 1⟩ ∧
    queryBlockIds (hybridQuery c4CexIdx "a".toList) = [5] := by decide

/-- Witness for C4 (amended) on the concrete cache of `c4CexIdx`: the fast
path's answer for `"a"` is the value of `"ab"`, a byte-shortest admissible
cache key beginning with `"a"`. -/
theorem c4_cache_shortest_match_witness :
    ∃ k, (k, (⟨0, 0, 1⟩ : IndexValue)) ∈ c4CexIdx.shortCache ∧
      ("a".toList).isPrefixOf k = true ∧
      (⟨0, 0, 1⟩ : IndexValue).minPrefixLen ≤ ("a".toList).length ∧
      ∀ e ∈ c4CexIdx.shortCache, ("a".toList).isPrefixOf e.1 = true →
        e.2.minPrefixLen ≤ ("a".toList).length →
        byteLen k ≤ byteLen e.1 :=
  (c4_cache_shortest_match c4CexIdx.shortCache "a".toList).2
    ⟨0, 0, 1⟩ (by decide)

/-- C2 (code bug): when two suggestions emit the same collapsed key
`"free"`, the stored value after build is the SECOND inserter's
(`qp_trie::Trie::insert` and `HashMap::insert` replace on duplicate keys),
and `query("free")` returns the second record (block id 2), not the first
(block id 1) as the spec's first-insertion-wins rule — and the source's own
comment "We'll keep the first occurrence (like other implementations)" —
require. -/
theorem c2_first_insert_loses :
    c2Amps.head?.map OriginalAmp.blockId = some 1 ∧
    List.lookup "free".toList (hybridBuild c2Amps).mainTrie =
      some ⟨1, 1, 4⟩ ∧
    queryBlockIds (hybridQuery (hybridBuild c2Amps) "free".toList) = [2] := by
  decide

theorem hybridSelect_cache_exact {idx : HybridAmpIndex} {q : List Char}
    {v : IndexValue} (h3 : q.length ≤ 3)
    (hl : List.lookup q idx.shortCache = some v)
    (ha : v.minPrefixLen ≤ q.length) : hybridSelect idx q = some v := by
  simp only [hybridSelect, if_pos h3, shortCacheLookup, hl, if_pos ha]

theorem hybridSelect_trie_exact {idx : HybridAmpIndex} {q : List Char}
    {v : IndexValue} (h3 : ¬ q.length ≤ 3)
    (hl : List.lookup q idx.mainTrie = some v)
    (ha : v.minPrefixLen ≤ q.length) : hybridSelect idx q = some v := by
  simp only [hybridSelect, if_neg h3, hl, if_pos ha]

/-- C3 (amended): every key present in the built index is found by `query`,
which returns exactly one result — the record reconstructed from the value
stored at that key (on duplicate keys the hybrid builder stores the LAST
inserter's value, since map inserts replace).  The first conjunct covers
every hybrid built state; the second covers the blart variant over every
tree state satisfying the built-state invariants: sorted keys (as
`blart::TreeMap` iteration always is), `min_prefix_len ≤ char_count(key)`
(the collapser contract, C6) and in-bounds suggestion indices. -/
theorem c3_inserted_key_found :
    (∀ (amps : List OriginalAmp) (k : List Char) (v : IndexValue),
      (List.lookup k (hybridBuild amps).shortCache = some v ∨
        List.lookup k (hybridBuild amps).mainTrie = some v) →
      hybridQuery (hybridBuild amps) k =
        Except.ok (hybridBuildResult (hybridBuild amps) v.suggestionIdx
          v.fullKwIdx) ∧
      (hybridBuildResult (hybridBuild amps) v.suggestionIdx
        v.fullKwIdx).length = 1) ∧
    (∀ (idx : BlartAmpIndex) (k : List Char) (md : KeywordMetadata),
      idx.keywordTree.Pairwise (fun a b => lexLt a.1 b.1 = true) →
      (k, md) ∈ idx.keywordTree →
      md.minPrefixLen ≤ k.length →
      md.suggestionIdx < idx.suggestions.length →
      blartQuery idx k = Except.ok (blartBuildResult idx md) ∧
      (blartBuildResult idx md).length = 1) := by
  constructor
  · intro amps k v h
    have hinv := hybridBuild_inv amps
    rcases h with hl | hl
    · obtain ⟨h3, hmin, hsug⟩ := hinv.1 _ (lookup_mem hl)
      have hsel : hybridSelect (hybridBuild amps) k = some v :=
        hybridSelect_cache_exact h3 hl hmin
      exact ⟨by simp only [hybridQuery, hsel], hybridBuildResult_length hsug⟩
    · obtain ⟨h3, hmin, hsug⟩ := hinv.2 _ (lookup_mem hl)
      have h3' : 3 < k.length := h3
      have hsel : hybridSelect (hybridBuild amps) k = some v :=
        hybridSelect_trie_exact (by omega) hl hmin
      exact ⟨by simp only [hybridQuery, hsel], hybridBuildResult_length hsug⟩
  · intro idx k md hsort hmem hadm hbound
    have hsel : blartSelect idx.keywordTree k = some (k, md) :=
      blartSelect_self hsort hmem hadm
    exact ⟨by simp only [blartQuery, hsel], blartBuildResult_length hbound⟩

/-- Witness for C3 (amended): querying the inserted key `"rust"` on the
built hybrid index returns exactly the stored record, and querying the
stored key `"ruby"` on a concrete sorted blart index returns exactly its
stored record. -/
theorem c3_inserted_key_found_witness :
    (hybridQuery (hybridBuild [c3WitAmp]) "rust".toList =
      Except.ok (hybridBuildResult (hybridBuild [c3WitAmp]) 0 0) ∧
    (hybridBuildResult (hybridBuild [c3WitAmp]) 0 0).length = 1) ∧
    (blartQuery c3DemoBlart "ruby".toList =
      Except.ok (blartBuildResult c3DemoBlart c3DemoMd) ∧
    (blartBuildResult c3DemoBlart c3DemoMd).length = 1) :=
  ⟨c3_inserted_key_found.1 [c3WitAmp] "rust".toList ⟨0, 0, 4⟩
      (Or.inr (by decide)),
    c3_inserted_key_found.2 c3DemoBlart "ruby".toList c3DemoMd
      (by decide) (by decide) (by decide) (by decide)⟩

/-- Counterexample for C3 as stated: the key `"gratis"` was inserted first
by the record with block id 7, but `query("gratis")` returns the record of
the second inserter (block id 8) — the claim's first-inserter-wins clause
fails on the code. -/
theorem c3_first_inserter_cex :
    c3CexAmps.head?.map OriginalAmp.blockId = some 7 ∧
    queryBlockIds (hybridQuery (hybridBuild c3CexAmps) "gratis".toList) =
      [8] := by decide

end RethinkAmp
